import Mathlib

/-!
# Verification of the rCore address-space / page-table subsystem

Shallow embedding of `os/src/mm/page_table.rs` and `os/src/mm/memory_set.rs`
(RISC-V Sv39 three-level page table, logical segments, ELF-derived address
spaces).  Physical memory is modelled as a map from physical page number and
in-page index to machine words; the external frame allocator is a counter
handing out fresh zero-initialised frames (its contract: distinct frames,
zeroed, physical page numbers fit the 44-bit PTE field, `None` on
exhaustion).  Machine integers are `Nat` with explicit `% 2 ^ w` where
overflow matters.  Rust panics (assertion failures, `unwrap` of `None`)
are modelled as `Option.none` results.
-/

/-! ## Page-table entries (`PageTableEntry` in page_table.rs)

A PTE is one `usize`; flag bits are V=1, R=2, W=4, X=8, U=16, G=32, A=64,
D=128 (`PTEFlags`).  A PTE value is represented as the raw `Nat` of its bits. -/

/-- `PageTableEntry::new(ppn, flags)`: `ppn.0 << 10 | flags.bits as usize`.
`flags.bits` is a `u8` (hence `% 2 ^ 8`); the result is a `usize`. -/
def PageTableEntry.new (ppn flags : Nat) : Nat :=
  (ppn <<< 10 ||| flags % 2 ^ 8) % 2 ^ 64

/-- `PageTableEntry::empty()`: all bits zero. -/
def PageTableEntry.empty : Nat := 0

/-- `PageTableEntry::ppn()`: `self.bits >> 10 & ((1usize << 44) - 1)`. -/
def PageTableEntry.ppn (bits : Nat) : Nat :=
  bits >>> 10 &&& (2 ^ 44 - 1)

/-- `PageTableEntry::flags()`: `PTEFlags::from_bits(self.bits as u8).unwrap()`.
All eight flag bits are defined, so `from_bits` succeeds on every `u8` and
the flags are just the low byte. -/
def PageTableEntry.flags (bits : Nat) : Nat := bits % 2 ^ 8

/-- `PageTableEntry::is_valid()`: `(self.flags() & PTEFlags::V) != PTEFlags::empty()`. -/
def PageTableEntry.is_valid (bits : Nat) : Prop :=
  PageTableEntry.flags bits &&& 1 ≠ 0

/-- `PageTableEntry::readable()`: `(self.flags() & PTEFlags::R) != PTEFlags::empty()`. -/
def PageTableEntry.readable (bits : Nat) : Prop :=
  PageTableEntry.flags bits &&& 2 ≠ 0

/-- `PageTableEntry::writable()`. -/
def PageTableEntry.writable (bits : Nat) : Prop :=
  PageTableEntry.flags bits &&& 4 ≠ 0

/-- `PageTableEntry::executable()`. -/
def PageTableEntry.executable (bits : Nat) : Prop :=
  PageTableEntry.flags bits &&& 8 ≠ 0

instance (bits : Nat) : Decidable (PageTableEntry.is_valid bits) := by
  unfold PageTableEntry.is_valid; infer_instance

instance (bits : Nat) : Decidable (PageTableEntry.readable bits) := by
  unfold PageTableEntry.readable; infer_instance

instance (bits : Nat) : Decidable (PageTableEntry.writable bits) := by
  unfold PageTableEntry.writable; infer_instance

instance (bits : Nat) : Decidable (PageTableEntry.executable bits) := by
  unfold PageTableEntry.executable; infer_instance

/-- `flags | PTEFlags::V` (setting bit 0), as used by `PageTable::map`. -/
def PTEFlags.orV (flags : Nat) : Nat := flags ||| 1

/-! ## Physical memory and the frame allocator

`PhysPageNum::get_pte_array()` reinterprets the 4 KiB page at a physical
page number as an array of 512 PTEs; `get_bytes_array()` as 4096 bytes.
We model physical memory as one map `mem : ppn → index → word`; a page is
only ever used under a single view, so the two views share the map.

The external frame allocator (`frame_alloc`, see spec section 6) returns
owned, zero-initialised frames with pairwise-distinct physical page
numbers that fit the 44-bit PPN field of a PTE, or `None` on exhaustion.
It is modelled as a counter. -/

structure Machine where
  mem : Nat → Nat → Nat
  nextFrame : Nat

/-- Read one word of physical memory (`ppn.get_pte_array()[i]`). -/
def Machine.read (m : Machine) (p i : Nat) : Nat := m.mem p i

/-- Write one word of physical memory. -/
def Machine.write (m : Machine) (p i v : Nat) : Machine :=
  { m with mem := fun q j => if q = p then (if j = i then v else m.mem q j) else m.mem q j }

/-- `frame_alloc()`: fresh zero-initialised frame, `none` on exhaustion.
The allocator's frames have physical page numbers below `2 ^ 44` (they must
fit the PPN field of a PTE). -/
def Machine.alloc (m : Machine) : Option (Machine × Nat) :=
  if m.nextFrame < 2 ^ 44 then
    some ({ mem := fun q j => if q = m.nextFrame then 0 else m.mem q j,
            nextFrame := m.nextFrame + 1 }, m.nextFrame)
  else none

/-! ## The page table (`PageTable` in page_table.rs)

Sv39: a virtual page number decomposes into three 9-bit level indices,
most significant first (`VirtPageNum::indexes` in `mm/address.rs`).
Modelled from the spec: "the virtual page number decomposes into exactly
three fixed-width level indices (most-significant first)" with a
"39-bit virtual address space, 4 KiB pages" (27-bit vpn, 9 bits per level);
`mm/address.rs` itself is outside the provided sources. -/

/-- Level-0 (most significant) index of a vpn. -/
def idx0 (vpn : Nat) : Nat := vpn / 2 ^ 18 % 2 ^ 9

/-- Level-1 index of a vpn. -/
def idx1 (vpn : Nat) : Nat := vpn / 2 ^ 9 % 2 ^ 9

/-- Level-2 (least significant) index of a vpn. -/
def idx2 (vpn : Nat) : Nat := vpn % 2 ^ 9

structure PageTable where
  root_ppn : Nat
  frames : List Nat

/-- `PageTable::new()`: allocate the root node frame. -/
def PageTable.new (m : Machine) : Option (Machine × PageTable) :=
  (m.alloc).map fun p => (p.1, { root_ppn := p.2, frames := [p.2] })

/-- `PageTable::from_token(satp)`: root ppn from the low 44 bits of the
token, owning no frames. -/
def PageTable.from_token (satp : Nat) : PageTable :=
  { root_ppn := satp &&& (2 ^ 44 - 1), frames := [] }

/-- `PageTable::token()`: `8usize << 60 | self.root_ppn.0`. -/
def PageTable.token (pt : PageTable) : Nat :=
  8 <<< 60 ||| pt.root_ppn

/-- `PageTable::find_pte`: walk without creating; the result names the
physical location (node ppn, index) of the level-2 entry.  The two upper
levels abort with `None` on an invalid entry; the level-2 entry itself is
returned whether or not it is valid. -/
def PageTable.find_pte (m : Machine) (pt : PageTable) (vpn : Nat) : Option (Nat × Nat) :=
  let pte0 := m.read pt.root_ppn (idx0 vpn)
  if PageTableEntry.is_valid pte0 then
    let pte1 := m.read (PageTableEntry.ppn pte0) (idx1 vpn)
    if PageTableEntry.is_valid pte1 then
      some (PageTableEntry.ppn pte1, idx2 vpn)
    else none
  else none

/-- `PageTable::find_pte_create`: walk, allocating a fresh zeroed node
(installed as a valid non-leaf entry with flags `V`) at each of the two
upper levels whose entry is invalid.  After installing, the walk continues
through `pte.ppn()` of the just-written entry, exactly as the source
re-reads the written slot.  `none` only on allocator exhaustion. -/
def PageTable.find_pte_create (m : Machine) (pt : PageTable) (vpn : Nat) :
    Option (Machine × PageTable × Nat × Nat) :=
  (if PageTableEntry.is_valid (m.read pt.root_ppn (idx0 vpn)) then
    some (m, pt, PageTableEntry.ppn (m.read pt.root_ppn (idx0 vpn)))
  else
    (m.alloc).map fun p =>
      (p.1.write pt.root_ppn (idx0 vpn) (PageTableEntry.new p.2 1),
       { pt with frames := pt.frames ++ [p.2] },
       PageTableEntry.ppn (PageTableEntry.new p.2 1))).bind fun s =>
  let m1 := s.1; let pt1 := s.2.1; let n1 := s.2.2
  (if PageTableEntry.is_valid (m1.read n1 (idx1 vpn)) then
    some (m1, pt1, PageTableEntry.ppn (m1.read n1 (idx1 vpn)))
  else
    (m1.alloc).map fun p =>
      (p.1.write n1 (idx1 vpn) (PageTableEntry.new p.2 1),
       { pt1 with frames := pt1.frames ++ [p.2] },
       PageTableEntry.ppn (PageTableEntry.new p.2 1))).bind fun s2 =>
  some (s2.1, s2.2.1, s2.2.2, idx2 vpn)

/-- `PageTable::map(vpn, ppn, flags)`: find-or-create the leaf slot,
assert it is not yet valid (`none` = panic), then write
`PageTableEntry::new(ppn, flags | V)`. -/
def PageTable.map (m : Machine) (pt : PageTable) (vpn ppn flags : Nat) :
    Option (Machine × PageTable) :=
  (PageTable.find_pte_create m pt vpn).bind fun s =>
  let m1 := s.1; let pt1 := s.2.1; let n := s.2.2.1; let i := s.2.2.2
  if PageTableEntry.is_valid (m1.read n i) then none
  else some (m1.write n i (PageTableEntry.new ppn (PTEFlags.orV flags)), pt1)

/-- `PageTable::unmap(vpn)`: find the leaf slot (`unwrap`, `none` = panic),
assert it is valid, clear it to `PageTableEntry::empty()`. -/
def PageTable.unmap (m : Machine) (pt : PageTable) (vpn : Nat) : Option Machine :=
  (PageTable.find_pte m pt vpn).bind fun s =>
  if PageTableEntry.is_valid (m.read s.1 s.2) then
    some (m.write s.1 s.2 PageTableEntry.empty)
  else none

/-- `PageTable::translate(vpn)`: the leaf entry's value, if the walk
completes (the entry itself may be invalid). -/
def PageTable.translate (m : Machine) (pt : PageTable) (vpn : Nat) : Option Nat :=
  (PageTable.find_pte m pt vpn).map fun s => m.read s.1 s.2

/-- The valid translation of a vpn: `translate` filtered to valid entries.
(An entry with the V bit clear is logically empty, spec section 3.) -/
def PageTable.transValid (m : Machine) (pt : PageTable) (vpn : Nat) : Option Nat :=
  match PageTable.translate m pt vpn with
  | some pte => if PageTableEntry.is_valid pte then some pte else none
  | none => none

/-! ## Tree structure of a table: node chains and the well-formedness invariant -/

/-- The level-1 node reached from the root through index `i0`, when that
root entry is valid. -/
def chain0 (m : Machine) (pt : PageTable) (i0 : Nat) : Option Nat :=
  let pte := m.read pt.root_ppn i0
  if PageTableEntry.is_valid pte then some (PageTableEntry.ppn pte) else none

/-- The level-2 node reached through indices `i0, i1`. -/
def chain1 (m : Machine) (pt : PageTable) (i0 i1 : Nat) : Option Nat :=
  (chain0 m pt i0).bind fun n1 =>
  let pte := m.read n1 i1
  if PageTableEntry.is_valid pte then some (PageTableEntry.ppn pte) else none

/-- `p` is the root or an interior node of the table's tree: the pages the
walk reads from. -/
def IsNode (m : Machine) (pt : PageTable) (p : Nat) : Prop :=
  p = pt.root_ppn ∨ (∃ i0, chain0 m pt i0 = some p) ∨
    (∃ i0 i1, chain1 m pt i0 i1 = some p)

/-- Well-formedness of a page table over a machine: all nodes come from the
allocator (are below the allocation counter), the root, level-1 nodes and
level-2 nodes are pairwise distinct pages, and distinct index paths reach
distinct nodes.  Holds for every table built through the `PageTable` API. -/
structure TableInv (m : Machine) (pt : PageTable) : Prop where
  root_lt : pt.root_ppn < m.nextFrame
  c0_lt : ∀ i0 n1, chain0 m pt i0 = some n1 → n1 < m.nextFrame
  c0_ne_root : ∀ i0 n1, chain0 m pt i0 = some n1 → n1 ≠ pt.root_ppn
  c1_lt : ∀ i0 i1 n2, chain1 m pt i0 i1 = some n2 → n2 < m.nextFrame
  c1_ne_root : ∀ i0 i1 n2, chain1 m pt i0 i1 = some n2 → n2 ≠ pt.root_ppn
  c1_ne_c0 : ∀ i0 i1 n2 j n1, chain1 m pt i0 i1 = some n2 → chain0 m pt j = some n1 →
    n2 ≠ n1
  c0_inj : ∀ i0 j0 n, chain0 m pt i0 = some n → chain0 m pt j0 = some n → i0 = j0
  c1_inj : ∀ i0 i1 j0 j1 n, chain1 m pt i0 i1 = some n → chain1 m pt j0 j1 = some n →
    i0 = j0 ∧ i1 = j1

/-- State after a successful `find_pte_create` walk for `vpn`: the leaf
slot lives at `(n2, idx2 vpn)`, the chains changed only on the walked
path, freshly created nodes are zero-filled, and the invariant still
holds. -/
structure MapMid (m : Machine) (pt : PageTable) (vpn : Nat)
    (mMid : Machine) (pt' : PageTable) (n2 : Nat) : Prop where
  root_eq : pt'.root_ppn = pt.root_ppn
  nf_lb : m.nextFrame ≤ mMid.nextFrame
  nf_ub : mMid.nextFrame ≤ m.nextFrame + 2
  hc1 : chain1 mMid pt' (idx0 vpn) (idx1 vpn) = some n2
  hc0_other : ∀ j, j ≠ idx0 vpn → chain0 mMid pt' j = chain0 m pt j
  hc1_other : ∀ j0 j1, ¬(j0 = idx0 vpn ∧ j1 = idx1 vpn) →
    chain1 mMid pt' j0 j1 = chain1 m pt j0 j1
  hInvMid : TableInv mMid pt'
  leaf_cases : (chain1 m pt (idx0 vpn) (idx1 vpn) = some n2 ∧
      ∀ j, mMid.read n2 j = m.read n2 j) ∨
    (chain1 m pt (idx0 vpn) (idx1 vpn) = none ∧ ∀ j, mMid.read n2 j = 0)
  old2rows : ∀ j0 j1 q, chain1 m pt j0 j1 = some q → q ≠ n2 →
    ∀ j, mMid.read q j = m.read q j
  n1_src : ∀ q, chain0 mMid pt' (idx0 vpn) = some q →
    chain0 m pt (idx0 vpn) = some q ∨ m.nextFrame ≤ q
  n2_src : chain1 m pt (idx0 vpn) (idx1 vpn) = some n2 ∨ m.nextFrame ≤ n2


/-! ## Logical segments (`MapArea` in memory_set.rs) and address spaces

Configuration constants and address alignment are modelled from the spec
("fixed virtual layout constants consumed from configuration", spec
section 6; `config.rs` and `mm/address.rs` are outside the provided
sources): 4 KiB pages, a fixed user-stack size, the trampoline page at
the very top of the 64-bit address space and the trap-context page
directly below it; `floor`/`ceil` align an address down/up to a page. -/

/-- Modelled from the spec: page size, 4 KiB. -/
def PAGE_SIZE : Nat := 4096

/-- Modelled from the spec: the fixed configured user stack size. -/
def USER_STACK_SIZE : Nat := 4096 * 2

/-- Modelled from the spec: trampoline at the top of the virtual address
space (`usize::MAX - PAGE_SIZE + 1`). -/
def TRAMPOLINE : Nat := 2 ^ 64 - PAGE_SIZE

/-- Modelled from the spec: per-task trap-context base, one page below
the trampoline. -/
def TRAP_CONTEXT_BASE : Nat := TRAMPOLINE - PAGE_SIZE

/-- Modelled from the spec: `VirtAddr::floor`, the page containing an
address (address right-shifted by the page-size bit width). -/
def vaFloor (va : Nat) : Nat := va / PAGE_SIZE

/-- Modelled from the spec: `VirtAddr::ceil`, aligning an end address up
to a page boundary. -/
def vaCeil (va : Nat) : Nat := (va + PAGE_SIZE - 1) / PAGE_SIZE

/-- `MapType`: identity or frame-backed mapping policy. -/
inductive MapType where
  | Identical : MapType
  | Framed : MapType
deriving DecidableEq

/-- `MapArea`: a half-open page range `[vpn_start, vpn_end)`
(`vpn_range`), the owned vpn → data-frame map (`data_frames`, a
`BTreeMap`, modelled as an association list with unique keys), the
mapping policy and the `R/W/X/U` permission byte (`MapPermission`). -/
structure MapArea where
  vpn_start : Nat
  vpn_end : Nat
  data_frames : List (Nat × Nat)
  map_type : MapType
  map_perm : Nat

/-- `MapArea::new`: floor the start address, ceil the end address. -/
def MapArea.new (start_va end_va : Nat) (mt : MapType) (perm : Nat) : MapArea :=
  { vpn_start := vaFloor start_va, vpn_end := vaCeil end_va,
    data_frames := [], map_type := mt, map_perm := perm }

/-- `MapArea::map_one`: identity policy maps `vpn ↦ vpn`; framed policy
allocates a fresh frame, records the vpn ↦ frame ownership, and maps to
it.  The PTE flags are the permission byte
(`PTEFlags::from_bits(self.map_perm.bits)`, identical bit positions). -/
def MapArea.map_one (m : Machine) (pt : PageTable) (a : MapArea) (vpn : Nat) :
    Option (Machine × MapArea × PageTable) :=
  match a.map_type with
  | MapType.Identical =>
    (PageTable.map m pt vpn vpn a.map_perm).map fun s => (s.1, a, s.2)
  | MapType.Framed =>
    (m.alloc).bind fun p =>
    (PageTable.map p.1 pt vpn p.2 a.map_perm).map fun s =>
      (s.1,
       { a with data_frames :=
          (a.data_frames.filter fun kv => kv.1 != vpn) ++ [(vpn, p.2)] },
       s.2)

/-- `MapArea::unmap_one`: drop the owned frame record (framed policy),
then clear the table entry. -/
def MapArea.unmap_one (m : Machine) (pt : PageTable) (a : MapArea) (vpn : Nat) :
    Option (Machine × MapArea) :=
  let a2 := if a.map_type = MapType.Framed then
      { a with data_frames := a.data_frames.filter fun kv => kv.1 != vpn }
    else a
  (PageTable.unmap m pt vpn).map fun m2 => (m2, a2)

/-- The `for vpn in vpn_range` loop of `MapArea::map`, `n` pages starting
at `vpn`. -/
def MapArea.mapFrom (m : Machine) (pt : PageTable) (a : MapArea) (vpn n : Nat) :
    Option (Machine × MapArea × PageTable) :=
  match n with
  | 0 => some (m, a, pt)
  | Nat.succ k =>
    (MapArea.map_one m pt a vpn).bind fun s =>
    MapArea.mapFrom s.1 s.2.2 s.2.1 (vpn + 1) k

/-- `MapArea::map`: map every page of the range. -/
def MapArea.map (m : Machine) (pt : PageTable) (a : MapArea) :
    Option (Machine × MapArea × PageTable) :=
  MapArea.mapFrom m pt a a.vpn_start (a.vpn_end - a.vpn_start)

/-- The unmapping loop of `MapArea::shrink_to`, `n` pages starting at `vpn`. -/
def MapArea.unmapFrom (m : Machine) (pt : PageTable) (a : MapArea) (vpn n : Nat) :
    Option (Machine × MapArea) :=
  match n with
  | 0 => some (m, a)
  | Nat.succ k =>
    (MapArea.unmap_one m pt a vpn).bind fun s =>
    MapArea.unmapFrom s.1 pt s.2 (vpn + 1) k

/-- `MapArea::shrink_to(new_end)`: unmap `[new_end, old_end)` then narrow
the stored range.  The range constructor (`VPNRange::new`, modelled from
the spec's half-open-range contract) asserts start ≤ end. -/
def MapArea.shrink_to (m : Machine) (pt : PageTable) (a : MapArea) (new_end : Nat) :
    Option (Machine × MapArea) :=
  if a.vpn_end < new_end then none
  else
    (MapArea.unmapFrom m pt a new_end (a.vpn_end - new_end)).bind fun s =>
    if new_end < a.vpn_start then none
    else some (s.1, { s.2 with vpn_end := new_end })

/-- `MapArea::append_to(new_end)`: map `[old_end, new_end)` then widen
the stored range. -/
def MapArea.append_to (m : Machine) (pt : PageTable) (a : MapArea) (new_end : Nat) :
    Option (Machine × MapArea × PageTable) :=
  if new_end < a.vpn_end then none
  else
    (MapArea.mapFrom m pt a a.vpn_end (new_end - a.vpn_end)).bind fun s =>
    if new_end < s.2.1.vpn_start then none
    else some (s.1, { s.2.1 with vpn_end := new_end }, s.2.2)

/-- One page-sized write of `MapArea::copy_data`:
`dst[..src.len()].copy_from_slice(src)` into the byte array of page `p`. -/
def Machine.writeBytes (m : Machine) (p : Nat) (data : List Nat) (start srcLen : Nat) :
    Machine :=
  { m with mem := fun q j =>
      if q = p then (if j < srcLen then data.getD (start + j) 0 else m.mem q j)
      else m.mem q j }

/-- The do-while loop of `MapArea::copy_data`: copy one page chunk
(`&data[start..len.min(start + PAGE_SIZE)]`) into the frame backing the
current vpn (`translate(current_vpn).unwrap().ppn()`), advance by a page,
stop once `start + PAGE_SIZE ≥ len`.  The fuel is an upper bound on the
iteration count, never reached. -/
def MapArea.copy_data_loop (m : Machine) (pt : PageTable) (data : List Nat)
    (vpn start : Nat) (fuel : Nat) : Option Machine :=
  match fuel with
  | 0 => some m
  | Nat.succ k =>
    let srcLen := min data.length (start + PAGE_SIZE) - start
    match PageTable.translate m pt vpn with
    | none => none
    | some pte =>
      let m2 := Machine.writeBytes m (PageTableEntry.ppn pte) data start srcLen
      if data.length ≤ start + PAGE_SIZE then some m2
      else MapArea.copy_data_loop m2 pt data (vpn + 1) (start + PAGE_SIZE) k

/-- `MapArea::copy_data`: framed areas only (`assert_eq!` otherwise). -/
def MapArea.copy_data (m : Machine) (pt : PageTable) (a : MapArea) (data : List Nat) :
    Option Machine :=
  if a.map_type = MapType.Framed then
    MapArea.copy_data_loop m pt data a.vpn_start 0 (data.length / PAGE_SIZE + 1)
  else none

/-- `MemorySet`: an owned page table plus the owned segments. -/
structure MemorySet where
  page_table : PageTable
  areas : List MapArea

/-- `MemorySet::new_bare`. -/
def MemorySet.new_bare (m : Machine) : Option (Machine × MemorySet) :=
  (PageTable.new m).map fun s => (s.1, { page_table := s.2, areas := [] })

/-- `MemorySet::token`. -/
def MemorySet.token (ms : MemorySet) : Nat := ms.page_table.token

/-- `MemorySet::push`: map the segment, optionally copy initial data,
append the segment to the owned list. -/
def MemorySet.push (m : Machine) (ms : MemorySet) (area : MapArea)
    (data : Option (List Nat)) : Option (Machine × MemorySet) :=
  (MapArea.map m ms.page_table area).bind fun s =>
  match data with
  | none => some (s.1, { page_table := s.2.2, areas := ms.areas ++ [s.2.1] })
  | some d =>
    (MapArea.copy_data s.1 s.2.2 s.2.1 d).map fun m2 =>
      (m2, { page_table := s.2.2, areas := ms.areas ++ [s.2.1] })

/-- `MemorySet::map_trampoline`: map the top page to the physical page of
the trampoline code (`strampoline`, an external linker symbol passed here
as a parameter) with flags `R | X`, not collected in `areas`. -/
def MemorySet.map_trampoline (m : Machine) (ms : MemorySet) (strampoline_ppn : Nat) :
    Option (Machine × MemorySet) :=
  (PageTable.map m ms.page_table (vaFloor TRAMPOLINE) strampoline_ppn (2 ||| 8)).map
    fun s => (s.1, { ms with page_table := s.2 })

/-- `MemorySet::translate`: delegate to the page table. -/
def MemorySet.translate (m : Machine) (ms : MemorySet) (vpn : Nat) : Option Nat :=
  PageTable.translate m ms.page_table vpn

/-- A loadable program header of an executable image, as consumed by
`from_elf` (parsing itself is external, spec section 1). -/
structure ProgHeader where
  is_load : Bool
  virtual_addr : Nat
  mem_size : Nat
  file_size : Nat
  offset : Nat
  flag_r : Bool
  flag_w : Bool
  flag_x : Bool

/-- An executable image: magic bytes, entry point, program headers and
the raw file bytes (`elf.input`). -/
structure ElfImage where
  magic : List Nat
  entry_point : Nat
  phs : List ProgHeader
  input : List Nat

/-- The program-header loop of `from_elf`: for each `Load` header, build
a framed user segment over `[virtual_addr, virtual_addr + mem_size)` with
`U` plus the header's `R/W/X` flags, push it with the file bytes
`input[offset .. offset + file_size]` (an out-of-range slice panics), and
record the segment's end page in `max_end_vpn`. -/
def MemorySet.loadPhs (m : Machine) (ms : MemorySet) (input : List Nat)
    (phs : List ProgHeader) (maxEnd : Nat) : Option (Machine × MemorySet × Nat) :=
  match phs with
  | [] => some (m, ms, maxEnd)
  | ph :: rest =>
    if ph.is_load then
      let start_va := ph.virtual_addr
      let end_va := ph.virtual_addr + ph.mem_size
      let map_perm := 16 + (if ph.flag_r then 2 else 0) + (if ph.flag_w then 4 else 0)
        + (if ph.flag_x then 8 else 0)
      let area := MapArea.new start_va end_va MapType.Framed map_perm
      if ph.offset + ph.file_size ≤ input.length then
        (MemorySet.push m ms area
            (some ((input.drop ph.offset).take ph.file_size))).bind fun s =>
        MemorySet.loadPhs s.1 s.2 input rest area.vpn_end
      else none
    else MemorySet.loadPhs m ms input rest maxEnd

/-- `MemorySet::from_elf`: trampoline; magic check (`assert_eq!`); the
loadable segments; a guard page above `max_end_vpn`; the framed user
stack (`R|W|U`); the zero-length placeholder used by `sbrk` at the stack
top; the framed trap-context segment (`R|W`) from `TRAP_CONTEXT_BASE` to
`TRAMPOLINE`.  Returns the space, the user stack top and the image's
entry point. -/
def MemorySet.from_elf (m : Machine) (elf : ElfImage) (strampoline_ppn : Nat) :
    Option (Machine × MemorySet × Nat × Nat) :=
  (MemorySet.new_bare m).bind fun s0 =>
  (MemorySet.map_trampoline s0.1 s0.2 strampoline_ppn).bind fun s1 =>
  if elf.magic = [0x7f, 0x45, 0x4c, 0x46] then
    (MemorySet.loadPhs s1.1 s1.2 elf.input elf.phs 0).bind fun s2 =>
    let max_end_va := s2.2.2 * PAGE_SIZE
    let user_stack_bottom := max_end_va + PAGE_SIZE
    let user_stack_top := user_stack_bottom + USER_STACK_SIZE
    (MemorySet.push s2.1 s2.2.1
        (MapArea.new user_stack_bottom user_stack_top MapType.Framed (2 ||| 4 ||| 16))
        none).bind fun s3 =>
    (MemorySet.push s3.1 s3.2
        (MapArea.new user_stack_top user_stack_top MapType.Framed (2 ||| 4 ||| 16))
        none).bind fun s4 =>
    (MemorySet.push s4.1 s4.2
        (MapArea.new TRAP_CONTEXT_BASE TRAMPOLINE MapType.Framed (2 ||| 4))
        none).map fun s5 =>
    (s5.1, s5.2, user_stack_top, elf.entry_point)
  else none

/-- The `iter_mut().find(...)` + `shrink_to` body of
`MemorySet::shrink_to`: locate the first owned segment whose range starts
at `sv` and shrink it; report whether one was found. -/
def MemorySet.shrinkAreas (m : Machine) (pt : PageTable) (areas : List MapArea)
    (sv ne : Nat) : Option (Machine × List MapArea × Bool) :=
  match areas with
  | [] => some (m, [], false)
  | a :: rest =>
    if a.vpn_start = sv then
      (MapArea.shrink_to m pt a ne).map fun s => (s.1, s.2 :: rest, true)
    else
      (MemorySet.shrinkAreas m pt rest sv ne).map fun s => (s.1, a :: s.2.1, s.2.2)

/-- `MemorySet::shrink_to(start, new_end)`. -/
def MemorySet.shrink_to (m : Machine) (ms : MemorySet) (start new_end : Nat) :
    Option (Machine × MemorySet × Bool) :=
  (MemorySet.shrinkAreas m ms.page_table ms.areas (vaFloor start) (vaCeil new_end)).map
    fun s => (s.1, { page_table := ms.page_table, areas := s.2.1 }, s.2.2)

/-- The find-and-grow body of `MemorySet::append_to`. -/
def MemorySet.appendAreas (m : Machine) (pt : PageTable) (areas : List MapArea)
    (sv ne : Nat) : Option (Machine × PageTable × List MapArea × Bool) :=
  match areas with
  | [] => some (m, pt, [], false)
  | a :: rest =>
    if a.vpn_start = sv then
      (MapArea.append_to m pt a ne).map fun s => (s.1, s.2.2, s.2.1 :: rest, true)
    else
      (MemorySet.appendAreas m pt rest sv ne).map fun s =>
        (s.1, s.2.1, a :: s.2.2.1, s.2.2.2)

/-- `MemorySet::append_to(start, new_end)`. -/
def MemorySet.append_to (m : Machine) (ms : MemorySet) (start new_end : Nat) :
    Option (Machine × MemorySet × Bool) :=
  (MemorySet.appendAreas m ms.page_table ms.areas (vaFloor start) (vaCeil new_end)).map
    fun s => (s.1, { page_table := s.2.1, areas := s.2.2.1 }, s.2.2.2)


/-- An all-zero machine with frame counter 0, for concrete executions. -/
def mach0 : Machine := { mem := fun _ _ => 0, nextFrame := 0 }

/-- Placeholder table used as a `getD` default. -/
def ptDefault : PageTable := { root_ppn := 0, frames := [] }

/-- A freshly created page table over `mach0`. -/
def newDemo : Option (Machine × PageTable) := PageTable.new mach0

def mA : Machine := (newDemo.getD (mach0, ptDefault)).1

def ptA : PageTable := (newDemo.getD (mach0, ptDefault)).2

/-- The fresh table after `map(5, 7, R)`. -/
def mapDemo : Option (Machine × PageTable) := PageTable.map mA ptA 5 7 2

def mB : Machine := (mapDemo.getD (mach0, ptDefault)).1

def ptB : PageTable := (mapDemo.getD (mach0, ptDefault)).2

/-- After the successful `map(5, 7, R)`: run `unmap(5)`, then report
`translate(5)`. -/
def c1demo : Option (Option Nat) :=
  (PageTable.unmap mB ptB 5).map fun m2 => PageTable.translate m2 ptB 5

/-- An identity-mapped one-page segment `[3, 4)`, permissions `R|W`. -/
def idArea : MapArea :=
  { vpn_start := 3, vpn_end := 4, data_frames := [],
    map_type := MapType.Identical, map_perm := 6 }

/-- Mapping page 3 of the identity segment into the fresh table. -/
def idDemo : Option (Machine × MapArea × PageTable) := MapArea.map_one mA ptA idArea 3

def mI : Machine := (idDemo.getD (mach0, idArea, ptDefault)).1

def ptI : PageTable := (idDemo.getD (mach0, idArea, ptDefault)).2.2


/-- A framed two-page segment `[1, 3)` with permissions `R|W`. -/
def c7area : MapArea :=
  { vpn_start := 1, vpn_end := 3, data_frames := [],
    map_type := MapType.Framed, map_perm := 6 }

/-- The fresh table with `c7area` fully mapped. -/
def c7setup : Option (Machine × MapArea × PageTable) := MapArea.map mA ptA c7area

def mC7 : Machine := (c7setup.getD (mach0, c7area, ptDefault)).1

def aC7 : MapArea := (c7setup.getD (mach0, c7area, ptDefault)).2.1

def ptC7 : PageTable := (c7setup.getD (mach0, c7area, ptDefault)).2.2


/-- An address space owning the mapped segment `[1, 3)`, for the C8
witness. -/
def msC8 : MemorySet := { page_table := ptC7, areas := [aC7] }


/-- The `max_end_vpn` accumulator of the `from_elf` program-header loop:
it is overwritten with the end page of each `Load` header in order, so it
ends up as the end page of the LAST loadable header (not the maximum). -/
def lastLoadEnd (phs : List ProgHeader) (acc : Nat) : Nat :=
  match phs with
  | [] => acc
  | ph :: rest =>
    lastLoadEnd rest (if ph.is_load then vaCeil (ph.virtual_addr + ph.mem_size) else acc)

/-- The highest end page over all loadable headers (what the spec's
"highest virtual page touched by any loadable segment" denotes). -/
def highestLoadEnd (phs : List ProgHeader) (acc : Nat) : Nat :=
  match phs with
  | [] => acc
  | ph :: rest =>
    highestLoadEnd rest
      (if ph.is_load then max acc (vaCeil (ph.virtual_addr + ph.mem_size)) else acc)

/-- `w` aliases (same three level indices as) some page of some loadable
header's range. -/
def InLoadRange (phs : List ProgHeader) (w : Nat) : Prop :=
  ∃ ph ∈ phs, ph.is_load = true ∧ ∃ v, vaFloor ph.virtual_addr ≤ v ∧
    v < vaCeil (ph.virtual_addr + ph.mem_size) ∧ w % 2 ^ 27 = v % 2 ^ 27

/-- A two-header image whose loadable headers are in descending order:
the first covers page 3 only, the second pages 0..2, so the last loadable
end page (3) differs from the highest (4). -/
def phHigh : ProgHeader :=
  { is_load := true, virtual_addr := 0x3000, mem_size := 0x1000,
    file_size := 0, offset := 0, flag_r := true, flag_w := false, flag_x := false }

/-- The lower, last loadable header of `celf`. -/
def phLow : ProgHeader :=
  { is_load := true, virtual_addr := 0, mem_size := 0x3000,
    file_size := 0, offset := 0, flag_r := true, flag_w := false, flag_x := false }

/-- Concrete image with descending loadable headers. -/
def celf : ElfImage :=
  { magic := [0x7f, 0x45, 0x4c, 0x46], entry_point := 0x1000,
    phs := [phHigh, phLow], input := [] }

/-- Run `from_elf` on `celf` from the zeroed machine. -/
def cerun : Option (Machine × MemorySet × Nat × Nat) :=
  MemorySet.from_elf mach0 celf 999

/-- A single ascending loadable header covering pages 0..1. -/
def welfPh : ProgHeader :=
  { is_load := true, virtual_addr := 0, mem_size := 0x2000,
    file_size := 0, offset := 0, flag_r := true, flag_w := false, flag_x := false }

/-- A minimal well-formed image: one loadable header, so the last
loadable end page is also the highest. -/
def welf : ElfImage :=
  { magic := [0x7f, 0x45, 0x4c, 0x46], entry_point := 0x1000,
    phs := [welfPh], input := [] }

/-- Run `from_elf` on `welf` from the zeroed machine. -/
def wrun : Option (Machine × MemorySet × Nat × Nat) :=
  MemorySet.from_elf mach0 welf 5

/-- The machine after the `welf` build. -/
def mW : Machine :=
  (wrun.getD (mach0, { page_table := ptDefault, areas := [] }, 0, 0)).1

/-- The memory set of the `welf` build. -/
def msW : MemorySet :=
  (wrun.getD (mach0, { page_table := ptDefault, areas := [] }, 0, 0)).2.1

/-! ## Theorems -/

/-! ### Arithmetic characterisation of the bit-level encoding -/

theorem PageTableEntry.new_eq (ppn flags : Nat) :
    PageTableEntry.new ppn flags = (ppn * 2 ^ 10 + flags % 2 ^ 8) % 2 ^ 64 := by
  unfold PageTableEntry.new
  rw [Nat.shiftLeft_eq]
  rw [mul_comm ppn (2 ^ 10), ← Nat.mul_add_lt_is_or (by omega : flags % 2 ^ 8 < 2 ^ 10),
    mul_comm (2 ^ 10) ppn]

theorem PageTableEntry.ppn_eq (bits : Nat) :
    PageTableEntry.ppn bits = bits / 2 ^ 10 % 2 ^ 44 := by
  unfold PageTableEntry.ppn
  rw [Nat.shiftRight_eq_div_pow, Nat.and_pow_two_sub_one_eq_mod]

theorem PageTableEntry.is_valid_iff (bits : Nat) :
    PageTableEntry.is_valid bits ↔ bits % 2 = 1 := by
  unfold PageTableEntry.is_valid PageTableEntry.flags
  rw [Nat.and_one_is_mod]
  omega

theorem PageTableEntry.readable_iff (bits : Nat) :
    PageTableEntry.readable bits ↔ bits / 2 % 2 = 1 := by
  unfold PageTableEntry.readable PageTableEntry.flags
  rw [show (2 : Nat) = 2 ^ 1 by norm_num, Nat.and_two_pow]
  rcases Bool.eq_false_or_eq_true ((bits % 2 ^ 8).testBit 1) with h | h <;>
    simp [h, Nat.testBit_to_div_mod] at * <;> omega

theorem PageTableEntry.writable_iff (bits : Nat) :
    PageTableEntry.writable bits ↔ bits / 4 % 2 = 1 := by
  unfold PageTableEntry.writable PageTableEntry.flags
  rw [show (4 : Nat) = 2 ^ 2 by norm_num, Nat.and_two_pow]
  rcases Bool.eq_false_or_eq_true ((bits % 2 ^ 8).testBit 2) with h | h <;>
    simp [h, Nat.testBit_to_div_mod] at * <;> omega

theorem PageTableEntry.executable_iff (bits : Nat) :
    PageTableEntry.executable bits ↔ bits / 8 % 2 = 1 := by
  unfold PageTableEntry.executable PageTableEntry.flags
  rw [show (8 : Nat) = 2 ^ 3 by norm_num, Nat.and_two_pow]
  rcases Bool.eq_false_or_eq_true ((bits % 2 ^ 8).testBit 3) with h | h <;>
    simp [h, Nat.testBit_to_div_mod] at * <;> omega

theorem PageTableEntry.ppn_new (ppn flags : Nat) (h : ppn < 2 ^ 44) :
    PageTableEntry.ppn (PageTableEntry.new ppn flags) = ppn := by
  rw [PageTableEntry.new_eq, PageTableEntry.ppn_eq]
  have h2 : ppn * 2 ^ 10 + flags % 2 ^ 8 < 2 ^ 64 := by
    have : flags % 2 ^ 8 < 2 ^ 8 := Nat.mod_lt _ (by norm_num)
    nlinarith [pow_pos (show (0:ℕ) < 2 by norm_num) 44]
  rw [Nat.mod_eq_of_lt h2]
  omega

theorem PageTableEntry.flags_new (ppn flags : Nat) (h : flags < 2 ^ 8) :
    PageTableEntry.flags (PageTableEntry.new ppn flags) = flags := by
  rw [PageTableEntry.new_eq]
  unfold PageTableEntry.flags
  omega

theorem Machine.read_write_self (m : Machine) (p i v : Nat) :
    (m.write p i v).read p i = v := by
  simp [Machine.read, Machine.write]

theorem Machine.read_write_ne_row (m : Machine) (p i v q j : Nat) (h : q ≠ p) :
    (m.write p i v).read q j = m.read q j := by
  simp [Machine.read, Machine.write, h]

theorem Machine.read_write_ne_idx (m : Machine) (p i v q j : Nat) (h : j ≠ i) :
    (m.write p i v).read q j = m.read q j := by
  simp only [Machine.read, Machine.write]
  split <;> simp [h]

theorem Machine.nextFrame_write (m : Machine) (p i v : Nat) :
    (m.write p i v).nextFrame = m.nextFrame := rfl

theorem Machine.alloc_spec (m : Machine) (m1 : Machine) (f : Nat)
    (h : m.alloc = some (m1, f)) :
    f = m.nextFrame ∧ m.nextFrame < 2 ^ 44 ∧ m1.nextFrame = m.nextFrame + 1 ∧
    (∀ j, m1.read f j = 0) ∧ (∀ q j, q ≠ f → m1.read q j = m.read q j) := by
  unfold Machine.alloc at h
  split at h
  · simp only [Option.some.injEq, Prod.mk.injEq] at h
    obtain ⟨hm, hf⟩ := h
    subst hm hf
    refine ⟨rfl, by assumption, rfl, ?_, ?_⟩
    · intro j; simp [Machine.read]
    · intro q j hq; simp [Machine.read, hq]
  · exact absurd h (by simp)

theorem Machine.alloc_isSome (m : Machine) (h : m.nextFrame < 2 ^ 44) :
    ∃ m1 f, m.alloc = some (m1, f) := by
  unfold Machine.alloc
  rw [if_pos h]
  exact ⟨_, _, rfl⟩

/-- Two vpns address the same leaf slot iff they agree on all three level
indices, i.e. agree modulo `2 ^ 27`. -/
theorem idx_eq_iff (v w : Nat) :
    (idx0 v = idx0 w ∧ idx1 v = idx1 w ∧ idx2 v = idx2 w) ↔ v % 2 ^ 27 = w % 2 ^ 27 := by
  unfold idx0 idx1 idx2
  omega

/-- `find_pte` through the chains. -/
theorem find_pte_eq_chain (m : Machine) (pt : PageTable) (vpn : Nat) :
    PageTable.find_pte m pt vpn =
      (chain1 m pt (idx0 vpn) (idx1 vpn)).map fun n2 => (n2, idx2 vpn) := by
  unfold PageTable.find_pte chain1 chain0
  by_cases h0 : PageTableEntry.is_valid (m.read pt.root_ppn (idx0 vpn))
  · simp only [h0, if_true, if_pos h0, Option.some_bind]
    by_cases h1 : PageTableEntry.is_valid
        (m.read (PageTableEntry.ppn (m.read pt.root_ppn (idx0 vpn))) (idx1 vpn))
    · simp [h1]
    · simp [h1]
  · simp [h0]

/-- `translate` through the chains. -/
theorem translate_eq_chain (m : Machine) (pt : PageTable) (vpn : Nat) :
    PageTable.translate m pt vpn =
      (chain1 m pt (idx0 vpn) (idx1 vpn)).map fun n2 => m.read n2 (idx2 vpn) := by
  unfold PageTable.translate
  rw [find_pte_eq_chain]
  cases chain1 m pt (idx0 vpn) (idx1 vpn) <;> simp

/-- If two machines agree on the root row and on every level-1 node row of
the first, the chains coincide. -/
theorem chain_congr (m m' : Machine) (pt : PageTable)
    (hroot : ∀ i, m'.read pt.root_ppn i = m.read pt.root_ppn i)
    (hn1 : ∀ i0 n1, chain0 m pt i0 = some n1 → ∀ i, m'.read n1 i = m.read n1 i) :
    (∀ i0, chain0 m' pt i0 = chain0 m pt i0) ∧
    (∀ i0 i1, chain1 m' pt i0 i1 = chain1 m pt i0 i1) := by
  have h0 : ∀ i0, chain0 m' pt i0 = chain0 m pt i0 := by
    intro i0; unfold chain0; rw [hroot i0]
  refine ⟨h0, ?_⟩
  intro i0 i1
  unfold chain1
  rw [h0 i0]
  cases hc : chain0 m pt i0 with
  | none => simp
  | some n1 => simp only [Option.some_bind]; rw [hn1 i0 n1 hc]

/-- If additionally the machines agree on every level-2 node row, every
translation coincides. -/
theorem translate_congr (m m' : Machine) (pt : PageTable)
    (hroot : ∀ i, m'.read pt.root_ppn i = m.read pt.root_ppn i)
    (hn1 : ∀ i0 n1, chain0 m pt i0 = some n1 → ∀ i, m'.read n1 i = m.read n1 i)
    (hn2 : ∀ i0 i1 n2, chain1 m pt i0 i1 = some n2 → ∀ i, m'.read n2 i = m.read n2 i) :
    ∀ vpn, PageTable.translate m' pt vpn = PageTable.translate m pt vpn := by
  intro vpn
  obtain ⟨h0, h1⟩ := chain_congr m m' pt hroot hn1
  rw [translate_eq_chain, translate_eq_chain, h1]
  cases hc : chain1 m pt (idx0 vpn) (idx1 vpn) with
  | none => simp
  | some n2 => simp only [Option.map_some']; rw [hn2 _ _ _ hc]

/-- A machine change that agrees on all node rows preserves the invariant. -/
theorem TableInv_congr (m m' : Machine) (pt : PageTable) (hInv : TableInv m pt)
    (hroot : ∀ i, m'.read pt.root_ppn i = m.read pt.root_ppn i)
    (hn1 : ∀ i0 n1, chain0 m pt i0 = some n1 → ∀ i, m'.read n1 i = m.read n1 i)
    (hnf : m.nextFrame ≤ m'.nextFrame) : TableInv m' pt := by
  obtain ⟨h0, h1⟩ := chain_congr m m' pt hroot hn1
  constructor
  · have := hInv.root_lt; omega
  · intro i0 n1 h; have := hInv.c0_lt i0 n1 (h0 i0 ▸ h); omega
  · intro i0 n1 h; exact hInv.c0_ne_root i0 n1 (h0 i0 ▸ h)
  · intro i0 i1 n2 h; have := hInv.c1_lt i0 i1 n2 (h1 i0 i1 ▸ h); omega
  · intro i0 i1 n2 h; exact hInv.c1_ne_root i0 i1 n2 (h1 i0 i1 ▸ h)
  · intro i0 i1 n2 j n1 h hj
    exact hInv.c1_ne_c0 i0 i1 n2 j n1 (h1 i0 i1 ▸ h) (h0 j ▸ hj)
  · intro i0 j0 n hi hj; exact hInv.c0_inj i0 j0 n (h0 i0 ▸ hi) (h0 j0 ▸ hj)
  · intro i0 i1 j0 j1 n hi hj
    exact hInv.c1_inj i0 i1 j0 j1 n (h1 i0 i1 ▸ hi) (h1 j0 j1 ▸ hj)

/-! ## Effect of the page-table operations -/

theorem PageTableEntry.not_is_valid_zero : ¬ PageTableEntry.is_valid 0 := by
  simp [PageTableEntry.is_valid_iff]

theorem PTEFlags.orV_mod_two (f : Nat) : PTEFlags.orV f % 2 = 1 := by
  have h := Nat.or_mod_two_eq_one (a := f) (b := 1)
  unfold PTEFlags.orV
  omega

theorem PageTableEntry.is_valid_new_one (p : Nat) :
    PageTableEntry.is_valid (PageTableEntry.new p 1) := by
  rw [PageTableEntry.is_valid_iff, PageTableEntry.new_eq]
  omega

theorem PageTableEntry.is_valid_new_orV (p f : Nat) :
    PageTableEntry.is_valid (PageTableEntry.new p (PTEFlags.orV f)) := by
  rw [PageTableEntry.is_valid_iff, PageTableEntry.new_eq]
  have := PTEFlags.orV_mod_two f
  omega

/-- `find_pte_create`, case: both upper-level entries already valid. -/
theorem mapmid_case_vv (m : Machine) (pt : PageTable) (vpn : Nat) (hInv : TableInv m pt)
    (h0 : PageTableEntry.is_valid (m.read pt.root_ppn (idx0 vpn)))
    (h1 : PageTableEntry.is_valid
      (m.read (PageTableEntry.ppn (m.read pt.root_ppn (idx0 vpn))) (idx1 vpn))) :
    MapMid m pt vpn m pt
      (PageTableEntry.ppn
        (m.read (PageTableEntry.ppn (m.read pt.root_ppn (idx0 vpn))) (idx1 vpn))) := by
  have hc1 : chain1 m pt (idx0 vpn) (idx1 vpn) =
      some (PageTableEntry.ppn
        (m.read (PageTableEntry.ppn (m.read pt.root_ppn (idx0 vpn))) (idx1 vpn))) := by
    unfold chain1 chain0
    simp only [if_pos h0, Option.some_bind, if_pos h1]
  exact {
    root_eq := rfl
    nf_lb := le_refl _
    nf_ub := by omega
    hc1 := hc1
    hc0_other := fun j _ => rfl
    hc1_other := fun j0 j1 _ => rfl
    hInvMid := hInv
    leaf_cases := Or.inl ⟨hc1, fun j => rfl⟩
    old2rows := fun j0 j1 q _ _ j => rfl
    n1_src := fun q hq => Or.inl hq
    n2_src := Or.inl hc1 }

/-- `find_pte_create`, case: root entry valid, level-1 entry invalid, so one
fresh node is created. -/
theorem mapmid_case_vi (m mA : Machine) (pt : PageTable) (vpn f : Nat)
    (hInv : TableInv m pt)
    (h0 : PageTableEntry.is_valid (m.read pt.root_ppn (idx0 vpn)))
    (h1 : ¬ PageTableEntry.is_valid
      (m.read (PageTableEntry.ppn (m.read pt.root_ppn (idx0 vpn))) (idx1 vpn)))
    (halloc : m.alloc = some (mA, f)) :
    MapMid m pt vpn
      (mA.write (PageTableEntry.ppn (m.read pt.root_ppn (idx0 vpn))) (idx1 vpn)
        (PageTableEntry.new f 1))
      { pt with frames := pt.frames ++ [f] }
      (PageTableEntry.ppn (PageTableEntry.new f 1)) := by
  obtain ⟨hf, hflt, hnfA, hzero, hold⟩ := Machine.alloc_spec m mA f halloc
  set n1 := PageTableEntry.ppn (m.read pt.root_ppn (idx0 vpn)) with hn1def
  set W := mA.write n1 (idx1 vpn) (PageTableEntry.new f 1) with hWdef
  set pt' : PageTable := { pt with frames := pt.frames ++ [f] } with hpt'
  have hroot' : pt'.root_ppn = pt.root_ppn := rfl
  have hppnf : PageTableEntry.ppn (PageTableEntry.new f 1) = f :=
    PageTableEntry.ppn_new f 1 (hf ▸ hflt)
  have hc0m : chain0 m pt (idx0 vpn) = some n1 := by
    unfold chain0; simp only [if_pos h0]
  have hn1lt : n1 < m.nextFrame := hInv.c0_lt _ _ hc0m
  have hn1root : n1 ≠ pt.root_ppn := hInv.c0_ne_root _ _ hc0m
  have hrootlt : pt.root_ppn < m.nextFrame := hInv.root_lt
  have hWnf : W.nextFrame = m.nextFrame + 1 := by
    rw [hWdef, Machine.nextFrame_write, hnfA]
  -- the root row is untouched
  have hreadroot : ∀ j, W.read pt.root_ppn j = m.read pt.root_ppn j := by
    intro j
    rw [hWdef, Machine.read_write_ne_row _ _ _ _ _ _ (Ne.symm hn1root),
      hold _ j (by omega)]
  -- rows of old level-1 nodes other than n1 are untouched
  have hreadn1row : ∀ q, q ≠ n1 → q < m.nextFrame → ∀ j, W.read q j = m.read q j := by
    intro q hq hqlt j
    rw [hWdef, Machine.read_write_ne_row _ _ _ _ _ _ hq, hold _ j (by omega)]
  -- the n1 row changed only at idx1 vpn
  have hreadn1 : ∀ j, j ≠ idx1 vpn → W.read n1 j = m.read n1 j := by
    intro j hj
    rw [hWdef, Machine.read_write_ne_idx _ _ _ _ _ _ hj, hold _ j (by omega)]
  have hreadn1i : W.read n1 (idx1 vpn) = PageTableEntry.new f 1 := by
    rw [hWdef, Machine.read_write_self]
  -- the fresh row is zero
  have hreadf : ∀ j, W.read f j = 0 := by
    intro j
    rw [hWdef, Machine.read_write_ne_row _ _ _ _ _ _ (by omega : f ≠ n1), hzero j]
  -- chain0 is unchanged
  have hch0 : ∀ j, chain0 W pt' j = chain0 m pt j := by
    intro j; unfold chain0; rw [hroot', hreadroot]
  -- chain1 description
  have hch1_new : chain1 W pt' (idx0 vpn) (idx1 vpn) =
      some (PageTableEntry.ppn (PageTableEntry.new f 1)) := by
    unfold chain1
    rw [hch0, hc0m]
    simp only [Option.some_bind]
    rw [hreadn1i, if_pos (PageTableEntry.is_valid_new_one f)]
  have hch1_old : ∀ j0 j1, ¬(j0 = idx0 vpn ∧ j1 = idx1 vpn) →
      chain1 W pt' j0 j1 = chain1 m pt j0 j1 := by
    intro j0 j1 hne
    unfold chain1
    rw [hch0]
    cases hc : chain0 m pt j0 with
    | none => simp
    | some q =>
      simp only [Option.some_bind]
      by_cases hq : q = n1
      · subst hq
        have hj0 : j0 = idx0 vpn := hInv.c0_inj _ _ _ hc hc0m
        have hj1 : j1 ≠ idx1 vpn := fun h => hne ⟨hj0, h⟩
        rw [hreadn1 _ hj1]
      · rw [hreadn1row q hq (hInv.c0_lt _ _ hc)]
  have hch1m_none : chain1 m pt (idx0 vpn) (idx1 vpn) = none := by
    unfold chain1
    rw [hc0m]
    simp only [Option.some_bind, if_neg h1]
  refine {
    root_eq := hroot'
    nf_lb := by omega
    nf_ub := by omega
    hc1 := hch1_new
    hc0_other := fun j _ => hch0 j
    hc1_other := hch1_old
    hInvMid := ?_
    leaf_cases := Or.inr ⟨hch1m_none, by rw [hppnf]; exact hreadf⟩
    old2rows := ?_
    n1_src := ?_
    n2_src := Or.inr (by omega) }
  · -- the invariant after creating the fresh level-2 node
    constructor
    · rw [hWnf, hroot']; have := hInv.root_lt; omega
    · intro i0 q h; rw [hch0] at h; have := hInv.c0_lt _ _ h; omega
    · intro i0 q h; rw [hch0] at h; rw [hroot']; exact hInv.c0_ne_root _ _ h
    · intro i0 i1 q h
      by_cases hpath : i0 = idx0 vpn ∧ i1 = idx1 vpn
      · obtain ⟨h0', h1'⟩ := hpath; subst h0' h1'
        rw [hch1_new] at h
        have := hInv.c0_lt
        injection h with h; rw [← h, hppnf, hWnf]; omega
      · rw [hch1_old _ _ hpath] at h; have := hInv.c1_lt _ _ _ h; omega
    · intro i0 i1 q h
      rw [hroot']
      by_cases hpath : i0 = idx0 vpn ∧ i1 = idx1 vpn
      · obtain ⟨h0', h1'⟩ := hpath; subst h0' h1'
        rw [hch1_new] at h
        injection h with h
        rw [← h, hppnf]
        have := hInv.root_lt; omega
      · rw [hch1_old _ _ hpath] at h; exact hInv.c1_ne_root _ _ _ h
    · intro i0 i1 q j p h hj
      rw [hch0] at hj
      by_cases hpath : i0 = idx0 vpn ∧ i1 = idx1 vpn
      · obtain ⟨h0', h1'⟩ := hpath; subst h0' h1'
        rw [hch1_new] at h
        injection h with h
        have := hInv.c0_lt _ _ hj
        rw [← h, hppnf]; omega
      · rw [hch1_old _ _ hpath] at h; exact hInv.c1_ne_c0 _ _ _ _ _ h hj
    · intro i0 j0 q hi hj
      rw [hch0] at hi hj
      exact hInv.c0_inj _ _ _ hi hj
    · intro i0 i1 j0 j1 q hi hj
      by_cases hpi : i0 = idx0 vpn ∧ i1 = idx1 vpn
      · by_cases hpj : j0 = idx0 vpn ∧ j1 = idx1 vpn
        · exact ⟨by rw [hpi.1, hpj.1], by rw [hpi.2, hpj.2]⟩
        · obtain ⟨h0', h1'⟩ := hpi; subst h0' h1'
          rw [hch1_new] at hi
          rw [hch1_old _ _ hpj] at hj
          injection hi with hi
          have := hInv.c1_lt _ _ _ hj
          rw [← hi, hppnf] at this; omega
      · by_cases hpj : j0 = idx0 vpn ∧ j1 = idx1 vpn
        · obtain ⟨h0', h1'⟩ := hpj; subst h0' h1'
          rw [hch1_new] at hj
          rw [hch1_old _ _ hpi] at hi
          injection hj with hj
          have := hInv.c1_lt _ _ _ hi
          rw [← hj, hppnf] at this; omega
        · rw [hch1_old _ _ hpi] at hi
          rw [hch1_old _ _ hpj] at hj
          exact hInv.c1_inj _ _ _ _ _ hi hj
  · -- rows of old level-2 nodes other than the leaf node are untouched
    intro j0 j1 q hq hne j
    have hqn1 : q ≠ n1 := by
      have hc0W : chain0 m pt (idx0 vpn) = some n1 := hc0m
      exact hInv.c1_ne_c0 _ _ _ _ _ hq hc0W
    exact hreadn1row q hqn1 (hInv.c1_lt _ _ _ hq) j
  · intro q hq
    rw [hch0] at hq
    exact Or.inl hq

/-- `find_pte_create`, case: root entry invalid, so both a level-1 and a
level-2 node are created. -/
theorem mapmid_case_ii (m mA mB : Machine) (pt : PageTable) (vpn f1 f2 : Nat)
    (hInv : TableInv m pt)
    (h0 : ¬ PageTableEntry.is_valid (m.read pt.root_ppn (idx0 vpn)))
    (halloc1 : m.alloc = some (mA, f1))
    (halloc2 : (mA.write pt.root_ppn (idx0 vpn) (PageTableEntry.new f1 1)).alloc =
      some (mB, f2)) :
    MapMid m pt vpn
      (mB.write (PageTableEntry.ppn (PageTableEntry.new f1 1)) (idx1 vpn)
        (PageTableEntry.new f2 1))
      { pt with frames := (pt.frames ++ [f1]) ++ [f2] }
      (PageTableEntry.ppn (PageTableEntry.new f2 1)) := by
  obtain ⟨hf1, hf1lt, hnfA, hzeroA, holdA⟩ := Machine.alloc_spec m mA f1 halloc1
  set W1 := mA.write pt.root_ppn (idx0 vpn) (PageTableEntry.new f1 1) with hW1def
  obtain ⟨hf2, hf2lt, hnfB, hzeroB, holdB⟩ := Machine.alloc_spec W1 mB f2 halloc2
  have hrootlt : pt.root_ppn < m.nextFrame := hInv.root_lt
  have hW1nf : W1.nextFrame = m.nextFrame + 1 := by
    rw [hW1def, Machine.nextFrame_write, hnfA]
  have hppnf1 : PageTableEntry.ppn (PageTableEntry.new f1 1) = f1 :=
    PageTableEntry.ppn_new f1 1 (hf1 ▸ hf1lt)
  have hppnf2 : PageTableEntry.ppn (PageTableEntry.new f2 1) = f2 :=
    PageTableEntry.ppn_new f2 1 (by omega)
  rw [hppnf1]
  set W2 := mB.write f1 (idx1 vpn) (PageTableEntry.new f2 1) with hW2def
  set pt' : PageTable := { pt with frames := (pt.frames ++ [f1]) ++ [f2] } with hpt'
  have hroot' : pt'.root_ppn = pt.root_ppn := rfl
  have hf2v : f2 = m.nextFrame + 1 := by omega
  have hW2nf : W2.nextFrame = m.nextFrame + 2 := by
    rw [hW2def, Machine.nextFrame_write, hnfB]; omega
  -- reads of W1
  have hW1root : ∀ j, j ≠ idx0 vpn → W1.read pt.root_ppn j = m.read pt.root_ppn j := by
    intro j hj
    rw [hW1def, Machine.read_write_ne_idx _ _ _ _ _ _ hj, holdA _ j (by omega)]
  have hW1rooti : W1.read pt.root_ppn (idx0 vpn) = PageTableEntry.new f1 1 := by
    rw [hW1def, Machine.read_write_self]
  have hW1f1 : ∀ j, W1.read f1 j = 0 := by
    intro j
    rw [hW1def, Machine.read_write_ne_row _ _ _ _ _ _ (by omega : f1 ≠ pt.root_ppn),
      hzeroA j]
  have hW1old : ∀ q, q ≠ pt.root_ppn → q < m.nextFrame → ∀ j, W1.read q j = m.read q j := by
    intro q hq hlt j
    rw [hW1def, Machine.read_write_ne_row _ _ _ _ _ _ hq, holdA _ j (by omega)]
  -- reads of W2
  have hW2root : ∀ j, j ≠ idx0 vpn → W2.read pt.root_ppn j = m.read pt.root_ppn j := by
    intro j hj
    rw [hW2def, Machine.read_write_ne_row _ _ _ _ _ _ (by omega : pt.root_ppn ≠ f1),
      holdB _ j (by omega), hW1root j hj]
  have hW2rooti : W2.read pt.root_ppn (idx0 vpn) = PageTableEntry.new f1 1 := by
    rw [hW2def, Machine.read_write_ne_row _ _ _ _ _ _ (by omega : pt.root_ppn ≠ f1),
      holdB _ _ (by omega), hW1rooti]
  have hW2f1 : ∀ j, j ≠ idx1 vpn → W2.read f1 j = 0 := by
    intro j hj
    rw [hW2def, Machine.read_write_ne_idx _ _ _ _ _ _ hj, holdB _ j (by omega), hW1f1 j]
  have hW2f1i : W2.read f1 (idx1 vpn) = PageTableEntry.new f2 1 := by
    rw [hW2def, Machine.read_write_self]
  have hW2f2 : ∀ j, W2.read f2 j = 0 := by
    intro j
    rw [hW2def, Machine.read_write_ne_row _ _ _ _ _ _ (by omega : f2 ≠ f1), hzeroB j]
  have hW2old : ∀ q, q ≠ pt.root_ppn → q < m.nextFrame → ∀ j, W2.read q j = m.read q j := by
    intro q hq hlt j
    rw [hW2def, Machine.read_write_ne_row _ _ _ _ _ _ (by omega : q ≠ f1),
      holdB _ j (by omega), hW1old q hq hlt j]
  -- chain0 of W2
  have hch0i : chain0 W2 pt' (idx0 vpn) = some f1 := by
    unfold chain0
    rw [hroot', hW2rooti, if_pos (PageTableEntry.is_valid_new_one f1), hppnf1]
  have hch0o : ∀ j, j ≠ idx0 vpn → chain0 W2 pt' j = chain0 m pt j := by
    intro j hj; unfold chain0; rw [hroot', hW2root j hj]
  have hch0m : chain0 m pt (idx0 vpn) = none := by
    unfold chain0; simp only [if_neg h0]
  -- chain1 of W2
  have hch1_new : chain1 W2 pt' (idx0 vpn) (idx1 vpn) =
      some (PageTableEntry.ppn (PageTableEntry.new f2 1)) := by
    unfold chain1
    rw [hch0i]
    simp only [Option.some_bind]
    rw [hW2f1i, if_pos (PageTableEntry.is_valid_new_one f2)]
  have hch1m_none : ∀ j1, chain1 m pt (idx0 vpn) j1 = none := by
    intro j1; unfold chain1; rw [hch0m]; rfl
  have hch1_old : ∀ j0 j1, ¬(j0 = idx0 vpn ∧ j1 = idx1 vpn) →
      chain1 W2 pt' j0 j1 = chain1 m pt j0 j1 := by
    intro j0 j1 hne
    by_cases hj0 : j0 = idx0 vpn
    · subst hj0
      have hj1 : j1 ≠ idx1 vpn := fun h => hne ⟨rfl, h⟩
      rw [hch1m_none]
      unfold chain1
      rw [hch0i]
      simp only [Option.some_bind]
      rw [hW2f1 j1 hj1]
      simp [PageTableEntry.not_is_valid_zero]
    · unfold chain1
      rw [hch0o j0 hj0]
      cases hc : chain0 m pt j0 with
      | none => simp
      | some q =>
        simp only [Option.some_bind]
        rw [hW2old q (hInv.c0_ne_root _ _ hc) (hInv.c0_lt _ _ hc)]
  refine {
    root_eq := hroot'
    nf_lb := by omega
    nf_ub := by omega
    hc1 := hch1_new
    hc0_other := hch0o
    hc1_other := hch1_old
    hInvMid := ?_
    leaf_cases := Or.inr ⟨hch1m_none (idx1 vpn), by rw [hppnf2]; exact hW2f2⟩
    old2rows := ?_
    n1_src := ?_
    n2_src := Or.inr (by omega) }
  · constructor
    · rw [hW2nf, hroot']; omega
    · intro i0 q h
      by_cases hi : i0 = idx0 vpn
      · subst hi; rw [hch0i] at h; injection h with h; omega
      · rw [hch0o i0 hi] at h; have := hInv.c0_lt _ _ h; omega
    · intro i0 q h
      rw [hroot']
      by_cases hi : i0 = idx0 vpn
      · subst hi; rw [hch0i] at h; injection h with h; omega
      · rw [hch0o i0 hi] at h; exact hInv.c0_ne_root _ _ h
    · intro i0 i1 q h
      by_cases hpath : i0 = idx0 vpn ∧ i1 = idx1 vpn
      · obtain ⟨ha, hb⟩ := hpath; subst ha hb
        rw [hch1_new] at h; injection h with h; rw [← h, hppnf2]; omega
      · rw [hch1_old _ _ hpath] at h; have := hInv.c1_lt _ _ _ h; omega
    · intro i0 i1 q h
      rw [hroot']
      by_cases hpath : i0 = idx0 vpn ∧ i1 = idx1 vpn
      · obtain ⟨ha, hb⟩ := hpath; subst ha hb
        rw [hch1_new] at h; injection h with h; rw [← h, hppnf2]; omega
      · rw [hch1_old _ _ hpath] at h; exact hInv.c1_ne_root _ _ _ h
    · intro i0 i1 q j p h hj
      by_cases hpath : i0 = idx0 vpn ∧ i1 = idx1 vpn
      · obtain ⟨ha, hb⟩ := hpath; subst ha hb
        rw [hch1_new] at h; injection h with h
        by_cases hji : j = idx0 vpn
        · subst hji; rw [hch0i] at hj; injection hj with hj; rw [← h, ← hj, hppnf2]; omega
        · rw [hch0o j hji] at hj
          have := hInv.c0_lt _ _ hj
          rw [← h, hppnf2]; omega
      · rw [hch1_old _ _ hpath] at h
        by_cases hji : j = idx0 vpn
        · subst hji; rw [hch0i] at hj; injection hj with hj
          have := hInv.c1_lt _ _ _ h
          omega
        · rw [hch0o j hji] at hj
          exact hInv.c1_ne_c0 _ _ _ _ _ h hj
    · intro i0 j0 q hi hj
      by_cases ha : i0 = idx0 vpn <;> by_cases hb : j0 = idx0 vpn
      · rw [ha, hb]
      · subst ha; rw [hch0i] at hi; injection hi with hi
        rw [hch0o j0 hb] at hj
        have := hInv.c0_lt _ _ hj
        omega
      · subst hb; rw [hch0i] at hj; injection hj with hj
        rw [hch0o i0 ha] at hi
        have := hInv.c0_lt _ _ hi
        omega
      · rw [hch0o i0 ha] at hi; rw [hch0o j0 hb] at hj
        exact hInv.c0_inj _ _ _ hi hj
    · intro i0 i1 j0 j1 q hi hj
      by_cases hpi : i0 = idx0 vpn ∧ i1 = idx1 vpn <;>
        by_cases hpj : j0 = idx0 vpn ∧ j1 = idx1 vpn
      · exact ⟨by rw [hpi.1, hpj.1], by rw [hpi.2, hpj.2]⟩
      · obtain ⟨ha, hb⟩ := hpi; subst ha hb
        rw [hch1_new] at hi; injection hi with hi
        rw [hch1_old _ _ hpj] at hj
        have := hInv.c1_lt _ _ _ hj
        rw [← hi, hppnf2] at this; omega
      · obtain ⟨ha, hb⟩ := hpj; subst ha hb
        rw [hch1_new] at hj; injection hj with hj
        rw [hch1_old _ _ hpi] at hi
        have := hInv.c1_lt _ _ _ hi
        rw [← hj, hppnf2] at this; omega
      · rw [hch1_old _ _ hpi] at hi; rw [hch1_old _ _ hpj] at hj
        exact hInv.c1_inj _ _ _ _ _ hi hj
  · intro j0 j1 q hq hne j
    exact hW2old q (hInv.c1_ne_root _ _ _ hq) (hInv.c1_lt _ _ _ hq) j
  · intro q hq
    rw [hch0i] at hq; injection hq with hq
    exact Or.inr (by omega)

theorem transValid_chain_some (m : Machine) (pt : PageTable) (vpn n2 : Nat)
    (h : chain1 m pt (idx0 vpn) (idx1 vpn) = some n2) :
    PageTable.transValid m pt vpn =
      if PageTableEntry.is_valid (m.read n2 (idx2 vpn)) then some (m.read n2 (idx2 vpn))
      else none := by
  unfold PageTable.transValid
  rw [translate_eq_chain, h]
  rfl

theorem transValid_chain_none (m : Machine) (pt : PageTable) (vpn : Nat)
    (h : chain1 m pt (idx0 vpn) (idx1 vpn) = none) :
    PageTable.transValid m pt vpn = none := by
  unfold PageTable.transValid
  rw [translate_eq_chain, h]
  rfl

/-- A successful `find_pte_create` produces a `MapMid` state and reports
the slot index `idx2 vpn`. -/
theorem find_pte_create_spec (m : Machine) (pt : PageTable) (vpn : Nat)
    (hInv : TableInv m pt) (mMid : Machine) (pt' : PageTable) (n i : Nat)
    (h : PageTable.find_pte_create m pt vpn = some (mMid, pt', n, i)) :
    i = idx2 vpn ∧ MapMid m pt vpn mMid pt' n := by
  unfold PageTable.find_pte_create at h
  by_cases h0 : PageTableEntry.is_valid (m.read pt.root_ppn (idx0 vpn))
  · rw [if_pos h0] at h
    simp only [Option.some_bind] at h
    by_cases h1 : PageTableEntry.is_valid
        (m.read (PageTableEntry.ppn (m.read pt.root_ppn (idx0 vpn))) (idx1 vpn))
    · rw [if_pos h1] at h
      simp only [Option.some_bind, Option.some.injEq, Prod.mk.injEq] at h
      obtain ⟨hm, hpt, hn, hi⟩ := h
      subst hm hpt hn hi
      exact ⟨rfl, mapmid_case_vv m pt vpn hInv h0 h1⟩
    · rw [if_neg h1] at h
      cases halloc : m.alloc with
      | none => rw [halloc] at h; simp at h
      | some p =>
        obtain ⟨mA, f⟩ := p
        rw [halloc] at h
        simp only [Option.map_some', Option.some_bind, Option.some.injEq,
          Prod.mk.injEq] at h
        obtain ⟨hm, hpt, hn, hi⟩ := h
        subst hm hpt hn hi
        exact ⟨rfl, mapmid_case_vi m mA pt vpn f hInv h0 h1 halloc⟩
  · rw [if_neg h0] at h
    cases halloc1 : m.alloc with
    | none => rw [halloc1] at h; simp at h
    | some p =>
      obtain ⟨mA, f1⟩ := p
      rw [halloc1] at h
      simp only [Option.map_some', Option.some_bind] at h
      obtain ⟨hf1, hf1lt, hnfA, hzeroA, holdA⟩ := Machine.alloc_spec m mA f1 halloc1
      have hppnf1 : PageTableEntry.ppn (PageTableEntry.new f1 1) = f1 :=
        PageTableEntry.ppn_new f1 1 (hf1 ▸ hf1lt)
      have hrd : (mA.write pt.root_ppn (idx0 vpn) (PageTableEntry.new f1 1)).read
          (PageTableEntry.ppn (PageTableEntry.new f1 1)) (idx1 vpn) = 0 := by
        rw [hppnf1,
          Machine.read_write_ne_row _ _ _ _ _ _
            (by have := hInv.root_lt; omega : f1 ≠ pt.root_ppn),
          hzeroA]
      rw [hrd, if_neg PageTableEntry.not_is_valid_zero] at h
      cases halloc2 : (mA.write pt.root_ppn (idx0 vpn) (PageTableEntry.new f1 1)).alloc with
      | none => rw [halloc2] at h; simp at h
      | some p2 =>
        obtain ⟨mB, f2⟩ := p2
        rw [halloc2] at h
        simp only [Option.map_some', Option.some_bind, Option.some.injEq,
          Prod.mk.injEq] at h
        obtain ⟨hm, hpt, hn, hi⟩ := h
        subst hm hpt hn hi
        exact ⟨rfl, mapmid_case_ii m mA mB pt vpn f1 f2 hInv h0 halloc1 halloc2⟩

/-- Full effect of a successful `PageTable::map`: the invariant is
preserved, the vpn was not previously valid-mapped, afterwards exactly the
vpns congruent to it modulo `2 ^ 27` (same three level indices) valid-map
to the freshly written entry, and all other valid translations are
untouched; all new nodes come from the allocator. -/
theorem PageTable.map_spec (m : Machine) (pt : PageTable) (vpn ppn flags : Nat)
    (hInv : TableInv m pt) (m' : Machine) (pt' : PageTable)
    (hmap : PageTable.map m pt vpn ppn flags = some (m', pt')) :
    pt'.root_ppn = pt.root_ppn ∧
    m.nextFrame ≤ m'.nextFrame ∧ m'.nextFrame ≤ m.nextFrame + 2 ∧
    TableInv m' pt' ∧
    PageTable.transValid m pt vpn = none ∧
    (∀ w, PageTable.transValid m' pt' w =
      if w % 2 ^ 27 = vpn % 2 ^ 27 then
        some (PageTableEntry.new ppn (PTEFlags.orV flags))
      else PageTable.transValid m pt w) ∧
    (∀ p, IsNode m' pt' p → IsNode m pt p ∨ m.nextFrame ≤ p) := by
  unfold PageTable.map at hmap
  cases hfc : PageTable.find_pte_create m pt vpn with
  | none => rw [hfc] at hmap; simp at hmap
  | some s =>
    obtain ⟨mMid, ptM, n, i⟩ := s
    rw [hfc] at hmap
    simp only [Option.some_bind] at hmap
    obtain ⟨hi, hmid⟩ := find_pte_create_spec m pt vpn hInv mMid ptM n i hfc
    subst hi
    by_cases hv : PageTableEntry.is_valid (mMid.read n (idx2 vpn))
    · rw [if_pos hv] at hmap; simp at hmap
    · rw [if_neg hv] at hmap
      simp only [Option.some.injEq, Prod.mk.injEq] at hmap
      obtain ⟨hm', hpt'⟩ := hmap
      subst hm' hpt'
      -- n is not the root and not a level-1 node of mMid
      have hnroot : n ≠ ptM.root_ppn := hmid.hInvMid.c1_ne_root _ _ _ hmid.hc1
      have hnc0 : ∀ j q, chain0 mMid ptM j = some q → n ≠ q := by
        intro j q hq
        exact hmid.hInvMid.c1_ne_c0 _ _ _ _ _ hmid.hc1 hq
      set W := mMid.write n (idx2 vpn) (PageTableEntry.new ppn (PTEFlags.orV flags))
        with hWdef
      -- the final write touches no node row read by the chains
      have hreadroot : ∀ j, W.read ptM.root_ppn j = mMid.read ptM.root_ppn j := by
        intro j
        rw [hWdef, Machine.read_write_ne_row _ _ _ _ _ _ (Ne.symm hnroot)]
      have hreadn1 : ∀ j q, chain0 mMid ptM j = some q →
          ∀ j2, W.read q j2 = mMid.read q j2 := by
        intro j q hq j2
        rw [hWdef, Machine.read_write_ne_row _ _ _ _ _ _ (Ne.symm (hnc0 j q hq))]
      obtain ⟨hch0, hch1⟩ := chain_congr mMid W ptM hreadroot hreadn1
      have hWnf : W.nextFrame = mMid.nextFrame := by
        rw [hWdef, Machine.nextFrame_write]
      have hInvW : TableInv W ptM :=
        TableInv_congr mMid W ptM hmid.hInvMid hreadroot hreadn1 (le_of_eq hWnf.symm)
      -- rows of other level-2 nodes of mMid are untouched by the final write
      have hreadn2 : ∀ j0 j1 q, chain1 mMid ptM j0 j1 = some q → q ≠ n →
          ∀ j2, W.read q j2 = mMid.read q j2 := by
        intro j0 j1 q _ hq j2
        rw [hWdef, Machine.read_write_ne_row _ _ _ _ _ _ hq]
      have hvalid_new : PageTableEntry.is_valid
          (PageTableEntry.new ppn (PTEFlags.orV flags)) :=
        PageTableEntry.is_valid_new_orV ppn flags
      -- the vpn was not valid-mapped before
      have hpre : PageTable.transValid m pt vpn = none := by
        rcases hmid.leaf_cases with ⟨hc, hrows⟩ | ⟨hc, hrows⟩
        · rw [transValid_chain_some m pt vpn n hc, if_neg]
          rw [← hrows (idx2 vpn)]
          exact hv
        · exact transValid_chain_none m pt vpn hc
      refine ⟨hmid.root_eq, by rw [hWnf]; exact hmid.nf_lb,
        by rw [hWnf]; exact hmid.nf_ub, hInvW, hpre, ?_, ?_⟩
      · -- the translation update
        intro w
        by_cases hw : w % 2 ^ 27 = vpn % 2 ^ 27
        · rw [if_pos hw]
          obtain ⟨he0, he1, he2⟩ := (idx_eq_iff w vpn).2 hw
          have hcw : chain1 W ptM (idx0 w) (idx1 w) = some n := by
            rw [he0, he1, hch1]; exact hmid.hc1
          rw [transValid_chain_some W ptM w n hcw, he2, hWdef,
            Machine.read_write_self, if_pos hvalid_new]
        · rw [if_neg hw]
          have hne : ¬ (idx0 w = idx0 vpn ∧ idx1 w = idx1 vpn ∧ idx2 w = idx2 vpn) := by
            intro hc; exact hw ((idx_eq_iff w vpn).1 hc)
          by_cases hp : idx0 w = idx0 vpn ∧ idx1 w = idx1 vpn
          · -- same upper path, different leaf index
            obtain ⟨hp0, hp1⟩ := hp
            have hi2 : idx2 w ≠ idx2 vpn := fun hc => hne ⟨hp0, hp1, hc⟩
            have hcw : chain1 W ptM (idx0 w) (idx1 w) = some n := by
              rw [hp0, hp1, hch1]; exact hmid.hc1
            rw [transValid_chain_some W ptM w n hcw]
            have hr : W.read n (idx2 w) = mMid.read n (idx2 w) := by
              rw [hWdef, Machine.read_write_ne_idx _ _ _ _ _ _ hi2]
            rcases hmid.leaf_cases with ⟨hc, hrows⟩ | ⟨hc, hrows⟩
            · have hcm : chain1 m pt (idx0 w) (idx1 w) = some n := by
                rw [hp0, hp1]; exact hc
              rw [transValid_chain_some m pt w n hcm, hr, hrows (idx2 w)]
            · have hcm : chain1 m pt (idx0 w) (idx1 w) = none := by
                rw [hp0, hp1]; exact hc
              rw [transValid_chain_none m pt w hcm, hr, hrows (idx2 w),
                if_neg PageTableEntry.not_is_valid_zero]
          · -- different upper path
            have hchw : chain1 W ptM (idx0 w) (idx1 w) = chain1 m pt (idx0 w) (idx1 w) := by
              rw [hch1]; exact hmid.hc1_other _ _ hp
            cases hcm : chain1 m pt (idx0 w) (idx1 w) with
            | none =>
              rw [transValid_chain_none m pt w hcm,
                transValid_chain_none W ptM w (by rw [hchw, hcm])]
            | some q =>
              have hcmid : chain1 mMid ptM (idx0 w) (idx1 w) = some q := by
                have := hmid.hc1_other (idx0 w) (idx1 w) hp
                rw [this, hcm]
              have hqn : q ≠ n := by
                intro hqe
                subst hqe
                obtain ⟨ha, hb⟩ := hmid.hInvMid.c1_inj _ _ _ _ _ hcmid hmid.hc1
                exact hp ⟨ha, hb⟩
              have hrw : W.read q (idx2 w) = m.read q (idx2 w) := by
                rw [hreadn2 _ _ _ hcmid hqn, hmid.old2rows _ _ _ hcm hqn]
              rw [transValid_chain_some m pt w q hcm,
                transValid_chain_some W ptM w q (by rw [hchw, hcm]), hrw]
      · -- node provenance
        intro p hpW
        have hpMid : IsNode mMid ptM p := by
          rcases hpW with h | ⟨j, h⟩ | ⟨j0, j1, h⟩
          · exact Or.inl h
          · exact Or.inr (Or.inl ⟨j, by rw [← hch0 j]; exact h⟩)
          · exact Or.inr (Or.inr ⟨j0, j1, by rw [← hch1 j0 j1]; exact h⟩)
        rcases hpMid with h | ⟨j, h⟩ | ⟨j0, j1, h⟩
        · exact Or.inl (Or.inl (hmid.root_eq ▸ h))
        · by_cases hj : j = idx0 vpn
          · subst hj
            rcases hmid.n1_src p h with hold | hfresh
            · exact Or.inl (Or.inr (Or.inl ⟨_, hold⟩))
            · exact Or.inr hfresh
          · rw [hmid.hc0_other j hj] at h
            exact Or.inl (Or.inr (Or.inl ⟨j, h⟩))
        · by_cases hj : j0 = idx0 vpn ∧ j1 = idx1 vpn
          · obtain ⟨ha, hb⟩ := hj; subst ha hb
            rw [hmid.hc1] at h
            injection h with h
            subst h
            rcases hmid.n2_src with hold | hfresh
            · exact Or.inl (Or.inr (Or.inr ⟨_, _, hold⟩))
            · exact Or.inr hfresh
          · rw [hmid.hc1_other j0 j1 hj] at h
            exact Or.inl (Or.inr (Or.inr ⟨j0, j1, h⟩))

/-- A vpn whose valid translation exists makes `map` fail (the
`assert!(!pte.is_valid())` fires): the walk finds the same valid leaf. -/
theorem PageTable.map_none_of_mapped (m : Machine) (pt : PageTable) (vpn ppn flags pte : Nat)
    (h : PageTable.transValid m pt vpn = some pte) :
    PageTable.map m pt vpn ppn flags = none := by
  have hch : ∃ n2, chain1 m pt (idx0 vpn) (idx1 vpn) = some n2 ∧
      PageTableEntry.is_valid (m.read n2 (idx2 vpn)) := by
    cases hc : chain1 m pt (idx0 vpn) (idx1 vpn) with
    | none => rw [transValid_chain_none _ _ _ hc] at h; exact absurd h (by simp)
    | some n2 =>
      rw [transValid_chain_some _ _ _ _ hc] at h
      refine ⟨n2, rfl, ?_⟩
      by_contra hneg
      rw [if_neg hneg] at h
      exact absurd h (by simp)
  obtain ⟨n2, hc, hvalid⟩ := hch
  unfold chain1 chain0 at hc
  by_cases h0 : PageTableEntry.is_valid (m.read pt.root_ppn (idx0 vpn))
  · rw [if_pos h0] at hc
    simp only [Option.some_bind] at hc
    by_cases h1 : PageTableEntry.is_valid
        (m.read (PageTableEntry.ppn (m.read pt.root_ppn (idx0 vpn))) (idx1 vpn))
    · rw [if_pos h1] at hc
      injection hc with hc
      unfold PageTable.map PageTable.find_pte_create
      rw [if_pos h0]
      simp only [Option.some_bind]
      rw [if_pos h1]
      simp only [Option.some_bind]
      rw [hc, if_pos hvalid]
    · rw [if_neg h1] at hc; exact absurd hc (by simp)
  · rw [if_neg h0] at hc; exact absurd hc (by simp)

/-- A vpn whose valid translation exists can be unmapped. -/
theorem PageTable.unmap_some_of_mapped (m : Machine) (pt : PageTable) (vpn pte : Nat)
    (h : PageTable.transValid m pt vpn = some pte) :
    ∃ m', PageTable.unmap m pt vpn = some m' := by
  have hch : ∃ n2, chain1 m pt (idx0 vpn) (idx1 vpn) = some n2 ∧
      PageTableEntry.is_valid (m.read n2 (idx2 vpn)) := by
    cases hc : chain1 m pt (idx0 vpn) (idx1 vpn) with
    | none => rw [transValid_chain_none _ _ _ hc] at h; exact absurd h (by simp)
    | some n2 =>
      rw [transValid_chain_some _ _ _ _ hc] at h
      refine ⟨n2, rfl, ?_⟩
      by_contra hneg
      rw [if_neg hneg] at h
      exact absurd h (by simp)
  obtain ⟨n2, hc, hvalid⟩ := hch
  refine ⟨m.write n2 (idx2 vpn) PageTableEntry.empty, ?_⟩
  unfold PageTable.unmap
  rw [find_pte_eq_chain, hc]
  simp only [Option.map_some', Option.some_bind]
  rw [if_pos hvalid]

/-- Full effect of a successful `PageTable::unmap`: afterwards exactly the
vpns with the same three level indices lose their valid translation; no
node changes; the invariant is preserved. -/
theorem PageTable.unmap_spec (m : Machine) (pt : PageTable) (vpn : Nat)
    (hInv : TableInv m pt) (m' : Machine)
    (hunmap : PageTable.unmap m pt vpn = some m') :
    TableInv m' pt ∧ m'.nextFrame = m.nextFrame ∧
    (∀ w, PageTable.transValid m' pt w =
      if w % 2 ^ 27 = vpn % 2 ^ 27 then none else PageTable.transValid m pt w) ∧
    (∀ p, IsNode m' pt p ↔ IsNode m pt p) := by
  unfold PageTable.unmap at hunmap
  rw [find_pte_eq_chain] at hunmap
  cases hc : chain1 m pt (idx0 vpn) (idx1 vpn) with
  | none => rw [hc] at hunmap; exact absurd hunmap (by simp)
  | some n2 =>
    rw [hc] at hunmap
    simp only [Option.map_some', Option.some_bind] at hunmap
    by_cases hv : PageTableEntry.is_valid (m.read n2 (idx2 vpn))
    · rw [if_pos hv] at hunmap
      injection hunmap with hunmap
      subst hunmap
      have hnroot : n2 ≠ pt.root_ppn := hInv.c1_ne_root _ _ _ hc
      have hnc0 : ∀ j q, chain0 m pt j = some q → n2 ≠ q :=
        fun j q hq => hInv.c1_ne_c0 _ _ _ _ _ hc hq
      set W := m.write n2 (idx2 vpn) PageTableEntry.empty with hWdef
      have hreadroot : ∀ j, W.read pt.root_ppn j = m.read pt.root_ppn j := by
        intro j
        rw [hWdef, Machine.read_write_ne_row _ _ _ _ _ _ (Ne.symm hnroot)]
      have hreadn1 : ∀ j q, chain0 m pt j = some q →
          ∀ j2, W.read q j2 = m.read q j2 := by
        intro j q hq j2
        rw [hWdef, Machine.read_write_ne_row _ _ _ _ _ _ (Ne.symm (hnc0 j q hq))]
      obtain ⟨hch0, hch1⟩ := chain_congr m W pt hreadroot hreadn1
      have hWnf : W.nextFrame = m.nextFrame := by rw [hWdef, Machine.nextFrame_write]
      refine ⟨TableInv_congr m W pt hInv hreadroot hreadn1 (le_of_eq hWnf.symm), hWnf, ?_, ?_⟩
      · intro w
        by_cases hw : w % 2 ^ 27 = vpn % 2 ^ 27
        · rw [if_pos hw]
          obtain ⟨he0, he1, he2⟩ := (idx_eq_iff w vpn).2 hw
          have hcw : chain1 W pt (idx0 w) (idx1 w) = some n2 := by
            rw [he0, he1, hch1, hc]
          rw [transValid_chain_some W pt w n2 hcw, he2, hWdef, Machine.read_write_self]
          simp [PageTableEntry.empty, PageTableEntry.not_is_valid_zero]
        · rw [if_neg hw]
          have hne : ¬ (idx0 w = idx0 vpn ∧ idx1 w = idx1 vpn ∧ idx2 w = idx2 vpn) := by
            intro hcon; exact hw ((idx_eq_iff w vpn).1 hcon)
          by_cases hp : idx0 w = idx0 vpn ∧ idx1 w = idx1 vpn
          · obtain ⟨hp0, hp1⟩ := hp
            have hi2 : idx2 w ≠ idx2 vpn := fun hcon => hne ⟨hp0, hp1, hcon⟩
            have hcw : chain1 W pt (idx0 w) (idx1 w) = some n2 := by
              rw [hp0, hp1, hch1, hc]
            have hcm : chain1 m pt (idx0 w) (idx1 w) = some n2 := by
              rw [hp0, hp1, hc]
            rw [transValid_chain_some W pt w n2 hcw, transValid_chain_some m pt w n2 hcm,
              hWdef, Machine.read_write_ne_idx _ _ _ _ _ _ hi2]
          · cases hcm : chain1 m pt (idx0 w) (idx1 w) with
            | none =>
              rw [transValid_chain_none m pt w hcm,
                transValid_chain_none W pt w (by rw [hch1, hcm])]
            | some q =>
              have hqn : q ≠ n2 := by
                intro hqe
                subst hqe
                obtain ⟨ha, hb⟩ := hInv.c1_inj _ _ _ _ _ hcm hc
                exact hp ⟨ha, hb⟩
              rw [transValid_chain_some m pt w q hcm,
                transValid_chain_some W pt w q (by rw [hch1, hcm]),
                hWdef, Machine.read_write_ne_row _ _ _ _ _ _ hqn]
      · intro p
        constructor
        · rintro (h | ⟨j, h⟩ | ⟨j0, j1, h⟩)
          · exact Or.inl h
          · exact Or.inr (Or.inl ⟨j, by rw [← hch0 j]; exact h⟩)
          · exact Or.inr (Or.inr ⟨j0, j1, by rw [← hch1 j0 j1]; exact h⟩)
        · rintro (h | ⟨j, h⟩ | ⟨j0, j1, h⟩)
          · exact Or.inl h
          · exact Or.inr (Or.inl ⟨j, by rw [hch0 j]; exact h⟩)
          · exact Or.inr (Or.inr ⟨j0, j1, by rw [hch1 j0 j1]; exact h⟩)
    · rw [if_neg hv] at hunmap
      exact absurd hunmap (by simp)

/-- `PageTable::new` yields a well-formed empty table. -/
theorem PageTable.new_spec (m m1 : Machine) (pt : PageTable)
    (h : PageTable.new m = some (m1, pt)) :
    TableInv m1 pt ∧ pt.root_ppn = m.nextFrame ∧ m1.nextFrame = m.nextFrame + 1 ∧
    (∀ w, PageTable.transValid m1 pt w = none) ∧
    (∀ p, IsNode m1 pt p → p = pt.root_ppn) := by
  unfold PageTable.new at h
  cases halloc : m.alloc with
  | none => rw [halloc] at h; exact absurd h (by simp)
  | some p =>
    obtain ⟨mA, f⟩ := p
    rw [halloc] at h
    simp only [Option.map_some', Option.some.injEq, Prod.mk.injEq] at h
    obtain ⟨hm, hpt⟩ := h
    subst hm hpt
    obtain ⟨hf, hflt, hnfA, hzero, _⟩ := Machine.alloc_spec m mA f halloc
    have hch0 : ∀ j, chain0 mA { root_ppn := f, frames := [f] } j = none := by
      intro j
      unfold chain0
      simp only
      rw [hzero j, if_neg PageTableEntry.not_is_valid_zero]
    have hch1 : ∀ j0 j1, chain1 mA { root_ppn := f, frames := [f] } j0 j1 = none := by
      intro j0 j1
      unfold chain1
      rw [hch0 j0]
      rfl
    refine ⟨?_, ?_, hnfA, ?_, ?_⟩
    case refine_2 => exact hf
    · constructor
      · simp only; omega
      · intro i0 q hq; rw [hch0] at hq; exact absurd hq (by simp)
      · intro i0 q hq; rw [hch0] at hq; exact absurd hq (by simp)
      · intro i0 i1 q hq; rw [hch1] at hq; exact absurd hq (by simp)
      · intro i0 i1 q hq; rw [hch1] at hq; exact absurd hq (by simp)
      · intro i0 i1 q j p hq; rw [hch1] at hq; exact absurd hq (by simp)
      · intro i0 j0 q hi; rw [hch0] at hi; exact absurd hi (by simp)
      · intro i0 i1 j0 j1 q hi; rw [hch1] at hi; exact absurd hi (by simp)
    · intro w
      exact transValid_chain_none _ _ _ (hch1 _ _)
    · rintro p (h | ⟨j, h⟩ | ⟨j0, j1, h⟩)
      · exact h
      · rw [hch0] at h; exact absurd h (by simp)
      · rw [hch1] at h; exact absurd h (by simp)

theorem transValid_eq_bind (m : Machine) (pt : PageTable) (vpn : Nat) :
    PageTable.transValid m pt vpn = (PageTable.translate m pt vpn).bind
      fun pte => if PageTableEntry.is_valid pte then some pte else none := by
  unfold PageTable.transValid
  cases PageTable.translate m pt vpn <;> rfl

theorem translate_of_transValid (m : Machine) (pt : PageTable) (vpn x : Nat)
    (h : PageTable.transValid m pt vpn = some x) :
    PageTable.translate m pt vpn = some x := by
  rw [transValid_eq_bind] at h
  cases htr : PageTable.translate m pt vpn with
  | none => rw [htr] at h; exact absurd h (by simp)
  | some pte =>
    rw [htr] at h
    simp only [Option.some_bind] at h
    by_cases hv : PageTableEntry.is_valid pte
    · rw [if_pos hv] at h; injection h with h; rw [h]
    · rw [if_neg hv] at h; exact absurd h (by simp)

theorem no_valid_of_transValid_none (m : Machine) (pt : PageTable) (vpn : Nat)
    (h : PageTable.transValid m pt vpn = none) :
    ∀ pte, PageTable.translate m pt vpn = some pte → ¬ PageTableEntry.is_valid pte := by
  intro pte htr hv
  rw [transValid_eq_bind, htr] at h
  simp only [Option.some_bind] at h
  rw [if_pos hv] at h
  exact absurd h (by simp)

theorem PageTable.token_eq (pt : PageTable) (h : pt.root_ppn < 2 ^ 60) :
    pt.token = 2 ^ 60 * 8 + pt.root_ppn := by
  unfold PageTable.token
  rw [Nat.shiftLeft_eq, mul_comm (8 : ℕ) (2 ^ 60), ← Nat.mul_add_lt_is_or h 8]

/-- Claim C10 (confirmed): `PageTableEntry::new(ppn, f)` packs so that
`ppn()` and `flags()` recover the arguments, `is_valid()` holds exactly
when `f` contains the `V` bit, and `empty()` is the all-zero, invalid
entry. -/
theorem claim_C10 (ppn flags : Nat) (hp : ppn < 2 ^ 44) (hf : flags < 2 ^ 8) :
    PageTableEntry.ppn (PageTableEntry.new ppn flags) = ppn ∧
    PageTableEntry.flags (PageTableEntry.new ppn flags) = flags ∧
    (PageTableEntry.is_valid (PageTableEntry.new ppn flags) ↔ flags &&& 1 ≠ 0) ∧
    PageTableEntry.empty = 0 ∧ ¬ PageTableEntry.is_valid PageTableEntry.empty := by
  refine ⟨PageTableEntry.ppn_new ppn flags hp, PageTableEntry.flags_new ppn flags hf,
    ?_, rfl, PageTableEntry.not_is_valid_zero⟩
  rw [PageTableEntry.is_valid_iff, PageTableEntry.new_eq, Nat.and_one_is_mod]
  omega

/-- Witness for C10 at `ppn = 3`, `flags = 23 = V|R|X|U`. -/
theorem claim_C10_witness :
    PageTableEntry.ppn (PageTableEntry.new 3 23) = 3 ∧
    PageTableEntry.flags (PageTableEntry.new 3 23) = 23 ∧
    (PageTableEntry.is_valid (PageTableEntry.new 3 23) ↔ (23 : Nat) &&& 1 ≠ 0) ∧
    PageTableEntry.empty = 0 ∧ ¬ PageTableEntry.is_valid PageTableEntry.empty :=
  claim_C10 3 23 (by norm_num) (by norm_num)

/-- Claim C4 (confirmed): `token()` puts the mode tag 8 in the top bits
(bits 60 and above) and the root physical page number in the low 44 bits,
and `from_token(token())` recovers exactly the root physical page
number. -/
theorem claim_C4 (pt : PageTable) (h : pt.root_ppn < 2 ^ 44) :
    pt.token / 2 ^ 60 = 8 ∧ pt.token % 2 ^ 44 = pt.root_ppn ∧
    (PageTable.from_token pt.token).root_ppn = pt.root_ppn := by
  have htok : pt.token = 2 ^ 60 * 8 + pt.root_ppn :=
    PageTable.token_eq pt (by omega)
  refine ⟨by omega, by omega, ?_⟩
  show pt.token &&& (2 ^ 44 - 1) = pt.root_ppn
  rw [Nat.and_pow_two_sub_one_eq_mod]
  omega

/-- Witness for C4 at root ppn 5. -/
theorem claim_C4_witness :
    (5 : Nat) < 2 ^ 44 ∧
    (PageTable.from_token (PageTable.token { root_ppn := 5, frames := [] })).root_ppn = 5 :=
  ⟨by norm_num, (claim_C4 { root_ppn := 5, frames := [] } (by norm_num)).2.2⟩

/-- Claim C5 (confirmed): `map` on a vpn whose leaf entry is already
valid hits the `assert!` and panics (modelled as `none`); it never
returns successfully, so it never silently overwrites a valid entry. -/
theorem claim_C5 (m : Machine) (pt : PageTable) (vpn ppn flags pte : Nat)
    (h : PageTable.transValid m pt vpn = some pte) :
    PageTable.map m pt vpn ppn flags = none :=
  PageTable.map_none_of_mapped m pt vpn ppn flags pte h

/-- Witness for C5: the vpn 5 mapped in `mB/ptB` cannot be mapped again. -/
theorem claim_C5_witness : PageTable.map mB ptB 5 9 3 = none :=
  claim_C5 mB ptB 5 9 3 (PageTableEntry.new 7 (PTEFlags.orV 2)) (by decide)

/-- Claim C1, counterexample to the "not found" half as stated: over a
fresh table, `map(5, 7, R)` succeeds (`mB/ptB`), `unmap(5)` succeeds, yet
`translate(5)` is not "not found" (`None`): the walk still completes and
returns the cleared entry `Some(empty)`. -/
theorem claim_C1_counterexample :
    PageTable.map mA ptA 5 7 2 = some (mB, ptB) ∧
    c1demo = some (some 0) ∧ some (0 : Nat) ≠ (none : Option Nat) :=
  ⟨rfl, by decide, by simp⟩

/-- Claim C1 (corrected): for every well-formed page table, a successful
`map(vpn, ppn, P)` makes `translate(vpn)` return an entry with the valid
bit set, R/W/X/U permission bits equal to those of `P` (mask `30`), and
physical page `ppn`; a subsequent `unmap(vpn)` succeeds and afterwards
`translate(vpn)` no longer returns any valid entry — it returns the
cleared invalid entry rather than `None`, which is the one deviation from
the claim as stated. -/
theorem claim_C1 (m : Machine) (pt : PageTable) (vpn ppn flags : Nat)
    (m1 : Machine) (pt1 : PageTable)
    (hInv : TableInv m pt) (hppn : ppn < 2 ^ 44) (hflags : flags < 2 ^ 8)
    (hmap : PageTable.map m pt vpn ppn flags = some (m1, pt1)) :
    (∃ pte, PageTable.translate m1 pt1 vpn = some pte ∧
      PageTableEntry.is_valid pte ∧
      PageTableEntry.flags pte &&& 30 = flags &&& 30 ∧
      PageTableEntry.ppn pte = ppn) ∧
    ∃ m2, PageTable.unmap m1 pt1 vpn = some m2 ∧
      ∀ pte2, PageTable.translate m2 pt1 vpn = some pte2 →
        ¬ PageTableEntry.is_valid pte2 := by
  obtain ⟨hroot, hnf1, hnf2, hInv1, hpre, hupd, hnode⟩ :=
    PageTable.map_spec m pt vpn ppn flags hInv m1 pt1 hmap
  have htv1 : PageTable.transValid m1 pt1 vpn =
      some (PageTableEntry.new ppn (PTEFlags.orV flags)) := by
    have := hupd vpn
    rwa [if_pos rfl] at this
  constructor
  · refine ⟨PageTableEntry.new ppn (PTEFlags.orV flags),
      translate_of_transValid m1 pt1 vpn _ htv1,
      PageTableEntry.is_valid_new_orV ppn flags, ?_, PageTableEntry.ppn_new ppn _ hppn⟩
    have horlt : PTEFlags.orV flags < 2 ^ 8 :=
      Nat.or_lt_two_pow hflags (by norm_num)
    rw [PageTableEntry.flags_new ppn _ horlt]
    unfold PTEFlags.orV
    rw [Nat.and_distrib_right]
    have h130 : (1 : Nat) &&& 30 = 0 := by decide
    rw [h130, Nat.or_zero]
  · obtain ⟨m2, hunm⟩ := PageTable.unmap_some_of_mapped m1 pt1 vpn _ htv1
    obtain ⟨hInv2, hnf, hupd2, _⟩ := PageTable.unmap_spec m1 pt1 vpn hInv1 m2 hunm
    have htv2 : PageTable.transValid m2 pt1 vpn = none := by
      have := hupd2 vpn
      rwa [if_pos rfl] at this
    exact ⟨m2, hunm, no_valid_of_transValid_none m2 pt1 vpn htv2⟩

/-- Witness for the corrected C1 at the concrete run `map(5, 7, R)` over
a fresh table. -/
theorem claim_C1_witness :
    (∃ pte, PageTable.translate mB ptB 5 = some pte ∧
      PageTableEntry.is_valid pte ∧
      PageTableEntry.flags pte &&& 30 = 2 &&& 30 ∧
      PageTableEntry.ppn pte = 7) ∧
    ∃ m2, PageTable.unmap mB ptB 5 = some m2 ∧
      ∀ pte2, PageTable.translate m2 ptB 5 = some pte2 →
        ¬ PageTableEntry.is_valid pte2 :=
  claim_C1 mA ptA 5 7 2 mB ptB
    ((PageTable.new_spec mach0 mA ptA rfl).1) (by norm_num) (by norm_num) rfl

/-- Claim C9 (confirmed): mapping a page of an identity-policy segment
installs a valid entry whose physical page number equals the virtual page
number. -/
theorem claim_C9 (m : Machine) (pt : PageTable) (a : MapArea) (vpn : Nat)
    (m1 : Machine) (a1 : MapArea) (pt1 : PageTable)
    (hInv : TableInv m pt) (hty : a.map_type = MapType.Identical) (hvpn : vpn < 2 ^ 27)
    (hmap : MapArea.map_one m pt a vpn = some (m1, a1, pt1)) :
    ∃ pte, PageTable.translate m1 pt1 vpn = some pte ∧
      PageTableEntry.is_valid pte ∧ PageTableEntry.ppn pte = vpn := by
  unfold MapArea.map_one at hmap
  rw [hty] at hmap
  cases hpm : PageTable.map m pt vpn vpn a.map_perm with
  | none => rw [hpm] at hmap; exact absurd hmap (by simp)
  | some s =>
    rw [hpm] at hmap
    simp only [Option.map_some', Option.some.injEq, Prod.mk.injEq] at hmap
    obtain ⟨hm1, _, hpt1⟩ := hmap
    obtain ⟨m1x, pt1x⟩ := s
    subst hm1 hpt1
    obtain ⟨_, _, _, _, _, hupd, _⟩ :=
      PageTable.map_spec m pt vpn vpn a.map_perm hInv m1x pt1x hpm
    have htv : PageTable.transValid m1x pt1x vpn =
        some (PageTableEntry.new vpn (PTEFlags.orV a.map_perm)) := by
      have := hupd vpn
      rwa [if_pos rfl] at this
    exact ⟨PageTableEntry.new vpn (PTEFlags.orV a.map_perm),
      translate_of_transValid m1x pt1x vpn _ htv,
      PageTableEntry.is_valid_new_orV vpn a.map_perm,
      PageTableEntry.ppn_new vpn _ (by omega)⟩

/-- Witness for C9: page 3 of the identity segment over a fresh table. -/
theorem claim_C9_witness :
    ∃ pte, PageTable.translate mI ptI 3 = some pte ∧
      PageTableEntry.is_valid pte ∧ PageTableEntry.ppn pte = 3 :=
  claim_C9 mA ptA idArea 3 mI idArea ptI
    ((PageTable.new_spec mach0 mA ptA rfl).1) rfl (by norm_num) rfl

/-- Every node of a well-formed table came from the allocator. -/
theorem IsNode_lt (m : Machine) (pt : PageTable) (p : Nat) (hInv : TableInv m pt)
    (h : IsNode m pt p) : p < m.nextFrame := by
  rcases h with h | ⟨j, h⟩ | ⟨j0, j1, h⟩
  · rw [h]; exact hInv.root_lt
  · exact hInv.c0_lt j p h
  · exact hInv.c1_lt j0 j1 p h

/-- Allocating a frame leaves the table untouched: chains, translations
and nodes are preserved and the invariant still holds. -/
theorem alloc_preserves (m : Machine) (pt : PageTable) (mAl : Machine) (f : Nat)
    (hInv : TableInv m pt) (halloc : m.alloc = some (mAl, f)) :
    TableInv mAl pt ∧
    (∀ w, PageTable.translate mAl pt w = PageTable.translate m pt w) ∧
    (∀ w, PageTable.transValid mAl pt w = PageTable.transValid m pt w) ∧
    (∀ p, IsNode mAl pt p ↔ IsNode m pt p) := by
  obtain ⟨hf, hflt, hnfA, hzero, hold⟩ := Machine.alloc_spec m mAl f halloc
  have hroot : ∀ j, mAl.read pt.root_ppn j = m.read pt.root_ppn j := by
    intro j
    exact hold _ j (by have := hInv.root_lt; omega)
  have hn1 : ∀ j q, chain0 m pt j = some q → ∀ j2, mAl.read q j2 = m.read q j2 := by
    intro j q hq j2
    exact hold _ j2 (by have := hInv.c0_lt _ _ hq; omega)
  have hn2 : ∀ j0 j1 q, chain1 m pt j0 j1 = some q → ∀ j2, mAl.read q j2 = m.read q j2 := by
    intro j0 j1 q hq j2
    exact hold _ j2 (by have := hInv.c1_lt _ _ _ hq; omega)
  obtain ⟨hch0, hch1⟩ := chain_congr m mAl pt hroot hn1
  have htr := translate_congr m mAl pt hroot hn1 hn2
  refine ⟨TableInv_congr m mAl pt hInv hroot hn1 (by omega), htr, ?_, ?_⟩
  · intro w
    rw [transValid_eq_bind, transValid_eq_bind, htr w]
  · intro p
    constructor
    · rintro (h | ⟨j, h⟩ | ⟨j0, j1, h⟩)
      · exact Or.inl h
      · exact Or.inr (Or.inl ⟨j, by rw [← hch0 j]; exact h⟩)
      · exact Or.inr (Or.inr ⟨j0, j1, by rw [← hch1 j0 j1]; exact h⟩)
    · rintro (h | ⟨j, h⟩ | ⟨j0, j1, h⟩)
      · exact Or.inl h
      · exact Or.inr (Or.inl ⟨j, by rw [hch0 j]; exact h⟩)
      · exact Or.inr (Or.inr ⟨j0, j1, by rw [hch1 j0 j1]; exact h⟩)

/-- `flags()` of a packed entry, with no bound on the flag argument. -/
theorem PageTableEntry.flags_new_mod (ppn flags : Nat) :
    PageTableEntry.flags (PageTableEntry.new ppn flags) = flags % 2 ^ 8 := by
  rw [PageTableEntry.new_eq]
  unfold PageTableEntry.flags
  omega

/-- Congruent vpns (same three level indices) translate identically. -/
theorem transValid_congr_mod (m : Machine) (pt : PageTable) (v w : Nat)
    (h : v % 2 ^ 27 = w % 2 ^ 27) :
    PageTable.transValid m pt v = PageTable.transValid m pt w := by
  obtain ⟨h0, h1, h2⟩ := (idx_eq_iff v w).2 h
  rw [transValid_eq_bind, transValid_eq_bind, translate_eq_chain, translate_eq_chain,
    h0, h1, h2]

/-- Full effect of a successful `MapArea::map_one`: the table gains
exactly the mapping for `vpn` (to `vpn` itself for identity policy, to a
fresh non-node frame for framed policy) and nothing else changes. -/
theorem MapArea.map_one_spec (m : Machine) (pt : PageTable) (a : MapArea) (vpn : Nat)
    (hInv : TableInv m pt) (m1 : Machine) (a1 : MapArea) (pt1 : PageTable)
    (hrun : MapArea.map_one m pt a vpn = some (m1, a1, pt1)) :
    pt1.root_ppn = pt.root_ppn ∧
    TableInv m1 pt1 ∧
    m.nextFrame ≤ m1.nextFrame ∧ m1.nextFrame ≤ m.nextFrame + 3 ∧
    a1.vpn_start = a.vpn_start ∧ a1.vpn_end = a.vpn_end ∧
    a1.map_type = a.map_type ∧ a1.map_perm = a.map_perm ∧
    PageTable.transValid m pt vpn = none ∧
    (∃ f, (∀ w, PageTable.transValid m1 pt1 w =
        if w % 2 ^ 27 = vpn % 2 ^ 27 then
          some (PageTableEntry.new f (PTEFlags.orV a.map_perm))
        else PageTable.transValid m pt w) ∧
      (a.map_type = MapType.Identical → f = vpn) ∧
      (a.map_type = MapType.Framed →
        ¬ IsNode m1 pt1 f ∧ f < 2 ^ 44 ∧ f < m1.nextFrame)) ∧
    (∀ p, IsNode m1 pt1 p → IsNode m pt p ∨ m.nextFrame ≤ p) := by
  unfold MapArea.map_one at hrun
  cases hty : a.map_type with
  | Identical =>
    rw [hty] at hrun
    cases hpm : PageTable.map m pt vpn vpn a.map_perm with
    | none => rw [hpm] at hrun; exact absurd hrun (by simp)
    | some s =>
      obtain ⟨sm, spt⟩ := s
      rw [hpm] at hrun
      simp only [Option.map_some', Option.some.injEq, Prod.mk.injEq] at hrun
      obtain ⟨hm1, ha1, hpt1⟩ := hrun
      subst hm1 hpt1
      obtain ⟨hroot, hlb, hub, hInv1, hpre, hupd, hprov⟩ :=
        PageTable.map_spec m pt vpn vpn a.map_perm hInv sm spt hpm
      exact ⟨hroot, hInv1, hlb, by omega, by rw [← ha1], by rw [← ha1],
        by rw [← ha1]; exact hty, by rw [← ha1], hpre,
        ⟨vpn, hupd, fun _ => rfl, fun hc => MapType.noConfusion hc⟩, hprov⟩
  | Framed =>
    rw [hty] at hrun
    cases halloc : m.alloc with
    | none => rw [halloc] at hrun; exact absurd hrun (by simp)
    | some p =>
      obtain ⟨mAl, f⟩ := p
      rw [halloc] at hrun
      simp only [Option.some_bind] at hrun
      cases hpm : PageTable.map mAl pt vpn f a.map_perm with
      | none => rw [hpm] at hrun; exact absurd hrun (by simp)
      | some s =>
        obtain ⟨sm, spt⟩ := s
        rw [hpm] at hrun
        simp only [Option.map_some', Option.some.injEq, Prod.mk.injEq] at hrun
        obtain ⟨hm1, ha1, hpt1⟩ := hrun
        subst hm1 hpt1
        obtain ⟨hf, hflt, hnfA, _, _⟩ := Machine.alloc_spec m mAl f halloc
        obtain ⟨hInvA, _, htvA, hndA⟩ := alloc_preserves m pt mAl f hInv halloc
        obtain ⟨hroot, hlb, hub, hInv1, hpre, hupd, hprov⟩ :=
          PageTable.map_spec mAl pt vpn f a.map_perm hInvA sm spt hpm
        have hb1 : f = m.nextFrame := hf
        have hb2 : f < 2 ^ 44 := by omega
        have hb3 : f < sm.nextFrame := by omega
        refine ⟨hroot, hInv1, by omega, by omega, by rw [← ha1], by rw [← ha1],
          by rw [← ha1], by rw [← ha1], by rw [← htvA vpn]; exact hpre,
          ?_, ?_⟩
        · refine ⟨f, ?_, fun hc => MapType.noConfusion hc,
            fun _ => ⟨?_, hb2, hb3⟩⟩
          · intro w
            rw [hupd w, htvA w]
          · intro hcon
            rcases hprov f hcon with hold | hfresh
            · have := IsNode_lt m pt f hInv ((hndA f).1 hold)
              omega
            · omega
        · intro q hq
          rcases hprov q hq with hold | hfresh
          · exact Or.inl ((hndA q).1 hold)
          · exact Or.inr (by omega)

/-- Full effect of a successful run of the `MapArea::map` loop over `n`
pages starting at `vpn`: every page of the range was previously unmapped,
afterwards every page of the range valid-maps with the segment's
permissions (identity pages to themselves, framed pages to fresh
non-node frames), and translations outside the range are untouched. -/
theorem MapArea.mapFrom_spec (n : Nat) :
    ∀ (m : Machine) (pt : PageTable) (a : MapArea) (vpn : Nat)
      (m1 : Machine) (a1 : MapArea) (pt1 : PageTable),
    TableInv m pt →
    MapArea.mapFrom m pt a vpn n = some (m1, a1, pt1) →
    pt1.root_ppn = pt.root_ppn ∧ TableInv m1 pt1 ∧
    m.nextFrame ≤ m1.nextFrame ∧
    a1.vpn_start = a.vpn_start ∧ a1.vpn_end = a.vpn_end ∧
    a1.map_type = a.map_type ∧ a1.map_perm = a.map_perm ∧
    (∀ v, vpn ≤ v → v < vpn + n → PageTable.transValid m pt v = none) ∧
    (∀ w, (∀ v, vpn ≤ v → v < vpn + n → w % 2 ^ 27 ≠ v % 2 ^ 27) →
      PageTable.transValid m1 pt1 w = PageTable.transValid m pt w) ∧
    (∀ v, vpn ≤ v → v < vpn + n → ∃ f,
      PageTable.transValid m1 pt1 v =
        some (PageTableEntry.new f (PTEFlags.orV a.map_perm)) ∧
      (a.map_type = MapType.Identical → f = v) ∧
      (a.map_type = MapType.Framed →
        ¬ IsNode m1 pt1 f ∧ f < 2 ^ 44 ∧ f < m1.nextFrame)) ∧
    (∀ p, IsNode m1 pt1 p → IsNode m pt p ∨ m.nextFrame ≤ p) := by
  induction n with
  | zero =>
    intro m pt a vpn m1 a1 pt1 hInv hrun
    unfold MapArea.mapFrom at hrun
    simp only [Option.some.injEq, Prod.mk.injEq] at hrun
    obtain ⟨hm, ha, hpt⟩ := hrun
    subst hm ha hpt
    exact ⟨rfl, hInv, le_refl _, rfl, rfl, rfl, rfl,
      fun v h1 h2 => absurd h2 (by omega),
      fun w _ => rfl,
      fun v h1 h2 => absurd h2 (by omega),
      fun p hp => Or.inl hp⟩
  | succ k ih =>
    intro m pt a vpn m1 a1 pt1 hInv hrun
    unfold MapArea.mapFrom at hrun
    cases hone : MapArea.map_one m pt a vpn with
    | none => rw [hone] at hrun; exact absurd hrun (by simp)
    | some s =>
      obtain ⟨sm, sa, spt⟩ := s
      rw [hone] at hrun
      simp only [Option.some_bind] at hrun
      obtain ⟨Sroot, SInv, Slb, Sub, Sst, Sen, Sty, Spm, Spre,
        ⟨f0, Supd, Sid, Sfr⟩, Sprov⟩ :=
        MapArea.map_one_spec m pt a vpn hInv sm sa spt hone
      obtain ⟨Iroot, IInv, Ilb, Ist, Ien, Ity, Ipm, Ipre, Ipres, Ival, Iprov⟩ :=
        ih sm spt sa (vpn + 1) m1 a1 pt1 SInv hrun
      have hsep : ∀ v, vpn + 1 ≤ v → v < vpn + 1 + k → v % 2 ^ 27 ≠ vpn % 2 ^ 27 := by
        intro v hv1 hv2 hcon
        have hnone := Ipre v hv1 hv2
        rw [Supd v, if_pos hcon] at hnone
        exact absurd hnone (by simp)
      have hvpn_pres : ∀ v, vpn + 1 ≤ v → v < vpn + 1 + k →
          vpn % 2 ^ 27 ≠ v % 2 ^ 27 := by
        intro v hv1 hv2 hcon
        exact hsep v hv1 hv2 hcon.symm
      refine ⟨by rw [Iroot, Sroot], IInv, by omega,
        by rw [Ist, Sst], by rw [Ien, Sen], by rw [Ity, Sty], by rw [Ipm, Spm],
        ?_, ?_, ?_, ?_⟩
      · -- every page of the range was unmapped at the start
        intro v h1 h2
        by_cases hv : v = vpn
        · rw [hv]; exact Spre
        · have hnone := Ipre v (by omega) (by omega)
          rw [Supd v] at hnone
          by_cases hc : v % 2 ^ 27 = vpn % 2 ^ 27
          · rw [if_pos hc] at hnone; exact absurd hnone (by simp)
          · rw [if_neg hc] at hnone; exact hnone
      · -- preservation outside the range
        intro w hw
        rw [Ipres w (fun v h1 h2 => hw v (by omega) (by omega)),
          Supd w, if_neg (hw vpn (by omega) (by omega))]
      · -- the value mapped at each page of the range
        intro v h1 h2
        by_cases hv : v = vpn
        · subst hv
          have hm1v : PageTable.transValid m1 pt1 v =
              some (PageTableEntry.new f0 (PTEFlags.orV a.map_perm)) := by
            rw [Ipres v hvpn_pres, Supd v, if_pos rfl]
          refine ⟨f0, hm1v, Sid, fun hfr => ?_⟩
          obtain ⟨hn, hlt, hnf⟩ := Sfr hfr
          refine ⟨?_, hlt, by omega⟩
          intro hcon
          rcases Iprov f0 hcon with hold | hfresh
          · exact hn hold
          · omega
        · obtain ⟨f, hval, hid, hframed⟩ := Ival v (by omega) (by omega)
          refine ⟨f, by rw [hval, Spm], ?_, ?_⟩
          · intro hidc; exact hid (by rw [Sty, hidc])
          · intro hfrc
            exact hframed (by rw [Sty, hfrc])
      · intro p hp
        rcases Iprov p hp with hmidn | hfresh
        · rcases Sprov p hmidn with h | h
          · exact Or.inl h
          · exact Or.inr h
        · exact Or.inr (by omega)

/-- Full effect of a successful `MapArea::unmap_one`: the vpn had a valid
translation, loses it, and nothing else changes. -/
theorem MapArea.unmap_one_spec (m : Machine) (pt : PageTable) (a : MapArea) (vpn : Nat)
    (hInv : TableInv m pt) (m1 : Machine) (a1 : MapArea)
    (hrun : MapArea.unmap_one m pt a vpn = some (m1, a1)) :
    TableInv m1 pt ∧ m1.nextFrame = m.nextFrame ∧
    a1.vpn_start = a.vpn_start ∧ a1.vpn_end = a.vpn_end ∧
    a1.map_type = a.map_type ∧ a1.map_perm = a.map_perm ∧
    PageTable.transValid m pt vpn ≠ none ∧
    (∀ w, PageTable.transValid m1 pt w =
      if w % 2 ^ 27 = vpn % 2 ^ 27 then none else PageTable.transValid m pt w) ∧
    (∀ p, IsNode m1 pt p ↔ IsNode m pt p) := by
  unfold MapArea.unmap_one at hrun
  cases hunm : PageTable.unmap m pt vpn with
  | none => rw [hunm] at hrun; exact absurd hrun (by simp)
  | some m2 =>
    rw [hunm] at hrun
    simp only [Option.map_some', Option.some.injEq, Prod.mk.injEq] at hrun
    obtain ⟨hm, ha⟩ := hrun
    subst hm
    obtain ⟨hInv1, hnf, hupd, hnode⟩ := PageTable.unmap_spec m pt vpn hInv m2 hunm
    have hmapped : PageTable.transValid m pt vpn ≠ none := by
      unfold PageTable.unmap at hunm
      rw [find_pte_eq_chain] at hunm
      cases hc : chain1 m pt (idx0 vpn) (idx1 vpn) with
      | none => rw [hc] at hunm; exact absurd hunm (by simp)
      | some n2 =>
        rw [hc] at hunm
        simp only [Option.map_some', Option.some_bind] at hunm
        by_cases hv : PageTableEntry.is_valid (m.read n2 (idx2 vpn))
        · rw [transValid_chain_some m pt vpn n2 hc, if_pos hv]
          simp
        · rw [if_neg hv] at hunm; exact absurd hunm (by simp)
    refine ⟨hInv1, hnf, ?_, ?_, ?_, ?_, hmapped, hupd, hnode⟩ <;>
      rw [← ha] <;> by_cases hty : a.map_type = MapType.Framed <;>
      simp [hty]

/-- Full effect of a successful run of the unmap loop over `n` pages:
every page of the range had a valid translation, all of them lose it, and
translations outside the range are untouched. -/
theorem MapArea.unmapFrom_spec (n : Nat) :
    ∀ (m : Machine) (pt : PageTable) (a : MapArea) (vpn : Nat)
      (m1 : Machine) (a1 : MapArea),
    TableInv m pt →
    MapArea.unmapFrom m pt a vpn n = some (m1, a1) →
    TableInv m1 pt ∧ m1.nextFrame = m.nextFrame ∧
    a1.vpn_start = a.vpn_start ∧ a1.vpn_end = a.vpn_end ∧
    a1.map_type = a.map_type ∧ a1.map_perm = a.map_perm ∧
    (∀ v, vpn ≤ v → v < vpn + n → PageTable.transValid m pt v ≠ none) ∧
    (∀ w, (∀ v, vpn ≤ v → v < vpn + n → w % 2 ^ 27 ≠ v % 2 ^ 27) →
      PageTable.transValid m1 pt w = PageTable.transValid m pt w) ∧
    (∀ v, vpn ≤ v → v < vpn + n → PageTable.transValid m1 pt v = none) ∧
    (∀ p, IsNode m1 pt p ↔ IsNode m pt p) := by
  induction n with
  | zero =>
    intro m pt a vpn m1 a1 hInv hrun
    unfold MapArea.unmapFrom at hrun
    simp only [Option.some.injEq, Prod.mk.injEq] at hrun
    obtain ⟨hm, ha⟩ := hrun
    subst hm ha
    exact ⟨hInv, rfl, rfl, rfl, rfl, rfl,
      fun v h1 h2 => absurd h2 (by omega),
      fun w _ => rfl,
      fun v h1 h2 => absurd h2 (by omega),
      fun p => Iff.rfl⟩
  | succ k ih =>
    intro m pt a vpn m1 a1 hInv hrun
    unfold MapArea.unmapFrom at hrun
    cases hone : MapArea.unmap_one m pt a vpn with
    | none => rw [hone] at hrun; exact absurd hrun (by simp)
    | some s =>
      obtain ⟨sm, sa⟩ := s
      rw [hone] at hrun
      simp only [Option.some_bind] at hrun
      obtain ⟨SInv, Snf, Sst, Sen, Sty, Spm, Smapped, Supd, Snode⟩ :=
        MapArea.unmap_one_spec m pt a vpn hInv sm sa hone
      obtain ⟨IInv, Inf, Ist, Ien, Ity, Ipm, Ipre, Ipres, Ifinal, Inode⟩ :=
        ih sm pt sa (vpn + 1) m1 a1 SInv hrun
      have hsep : ∀ v, vpn + 1 ≤ v → v < vpn + 1 + k → v % 2 ^ 27 ≠ vpn % 2 ^ 27 := by
        intro v hv1 hv2 hcon
        have hne := Ipre v hv1 hv2
        rw [Supd v, if_pos hcon] at hne
        exact hne rfl
      refine ⟨IInv, by omega, by rw [Ist, Sst], by rw [Ien, Sen],
        by rw [Ity, Sty], by rw [Ipm, Spm], ?_, ?_, ?_, ?_⟩
      · intro v h1 h2
        by_cases hv : v = vpn
        · rw [hv]; exact Smapped
        · have hne := Ipre v (by omega) (by omega)
          rw [Supd v, if_neg (hsep v (by omega) (by omega))] at hne
          exact hne
      · intro w hw
        rw [Ipres w (fun v h1 h2 => hw v (by omega) (by omega)),
          Supd w, if_neg (hw vpn (by omega) (by omega))]
      · intro v h1 h2
        by_cases hv : v = vpn
        · subst hv
          rw [Ipres v (fun v2 hv1 hv2 hcon => hsep v2 hv1 hv2 hcon.symm),
            Supd v, if_pos rfl]
        · exact Ifinal v (by omega) (by omega)
      · intro p
        exact (Inode p).trans (Snode p)

/-- `find_pte_create` only fails on allocator exhaustion; with two frames
of headroom it succeeds. -/
theorem find_pte_create_isSome (m : Machine) (pt : PageTable) (vpn : Nat)
    (hcap : m.nextFrame + 2 ≤ 2 ^ 44) :
    ∃ s, PageTable.find_pte_create m pt vpn = some s := by
  unfold PageTable.find_pte_create
  by_cases h0 : PageTableEntry.is_valid (m.read pt.root_ppn (idx0 vpn))
  · rw [if_pos h0]
    simp only [Option.some_bind]
    by_cases h1 : PageTableEntry.is_valid
        (m.read (PageTableEntry.ppn (m.read pt.root_ppn (idx0 vpn))) (idx1 vpn))
    · rw [if_pos h1]
      exact ⟨_, rfl⟩
    · rw [if_neg h1]
      obtain ⟨mA, f, hal⟩ := Machine.alloc_isSome m (by omega)
      rw [hal]
      simp only [Option.map_some', Option.some_bind]
      exact ⟨_, rfl⟩
  · rw [if_neg h0]
    obtain ⟨mA, f, hal⟩ := Machine.alloc_isSome m (by omega)
    rw [hal]
    simp only [Option.map_some', Option.some_bind]
    obtain ⟨_, _, hnfA, _, _⟩ := Machine.alloc_spec m mA f hal
    by_cases h1 : PageTableEntry.is_valid
        ((mA.write pt.root_ppn (idx0 vpn) (PageTableEntry.new f 1)).read
          (PageTableEntry.ppn (PageTableEntry.new f 1)) (idx1 vpn))
    · rw [if_pos h1]
      exact ⟨_, rfl⟩
    · rw [if_neg h1]
      obtain ⟨mB, f2, hal2⟩ :=
        Machine.alloc_isSome (mA.write pt.root_ppn (idx0 vpn) (PageTableEntry.new f 1))
          (by rw [Machine.nextFrame_write]; omega)
      rw [hal2]
      simp only [Option.map_some', Option.some_bind]
      exact ⟨_, rfl⟩

/-- `map` succeeds on a vpn with no valid translation, given two frames
of allocator headroom. -/
theorem PageTable.map_some_of_unmapped (m : Machine) (pt : PageTable) (vpn ppn flags : Nat)
    (hInv : TableInv m pt) (hnone : PageTable.transValid m pt vpn = none)
    (hcap : m.nextFrame + 2 ≤ 2 ^ 44) :
    ∃ s, PageTable.map m pt vpn ppn flags = some s := by
  obtain ⟨s, hfc⟩ := find_pte_create_isSome m pt vpn hcap
  obtain ⟨mMid, ptM, n, i⟩ := s
  obtain ⟨hi, hmid⟩ := find_pte_create_spec m pt vpn hInv mMid ptM n i hfc
  subst hi
  have hv : ¬ PageTableEntry.is_valid (mMid.read n (idx2 vpn)) := by
    rcases hmid.leaf_cases with ⟨hc, hrows⟩ | ⟨_, hrows⟩
    · rw [transValid_chain_some m pt vpn n hc] at hnone
      rw [hrows (idx2 vpn)]
      intro hval
      rw [if_pos hval] at hnone
      exact absurd hnone (by simp)
    · rw [hrows (idx2 vpn)]
      exact PageTableEntry.not_is_valid_zero
  unfold PageTable.map
  rw [hfc]
  simp only [Option.some_bind]
  rw [if_neg hv]
  exact ⟨_, rfl⟩

/-- `MapArea::map_one` succeeds on an unmapped vpn with three frames of
allocator headroom. -/
theorem MapArea.map_one_succeeds (m : Machine) (pt : PageTable) (a : MapArea) (vpn : Nat)
    (hInv : TableInv m pt) (hnone : PageTable.transValid m pt vpn = none)
    (hcap : m.nextFrame + 3 ≤ 2 ^ 44) :
    ∃ s, MapArea.map_one m pt a vpn = some s := by
  unfold MapArea.map_one
  cases hty : a.map_type with
  | Identical =>
    obtain ⟨s, hs⟩ :=
      PageTable.map_some_of_unmapped m pt vpn vpn a.map_perm hInv hnone (by omega)
    rw [hs]
    exact ⟨_, rfl⟩
  | Framed =>
    obtain ⟨mAl, f, hal⟩ := Machine.alloc_isSome m (by omega)
    obtain ⟨_, _, hnfA, _, _⟩ := Machine.alloc_spec m mAl f hal
    obtain ⟨hInvA, _, htvA, _⟩ := alloc_preserves m pt mAl f hInv hal
    obtain ⟨s, hs⟩ := PageTable.map_some_of_unmapped mAl pt vpn f a.map_perm hInvA
      (by rw [htvA]; exact hnone) (by omega)
    rw [hal]
    simp only [Option.some_bind]
    rw [hs]
    exact ⟨_, rfl⟩

/-- The mapping loop succeeds over a range of unmapped vpns below
`2 ^ 27`, given three frames of headroom per page. -/
theorem MapArea.mapFrom_succeeds (n : Nat) :
    ∀ (m : Machine) (pt : PageTable) (a : MapArea) (vpn : Nat),
    TableInv m pt →
    (∀ v, vpn ≤ v → v < vpn + n → PageTable.transValid m pt v = none) →
    vpn + n ≤ 2 ^ 27 →
    m.nextFrame + 3 * n ≤ 2 ^ 44 →
    ∃ s, MapArea.mapFrom m pt a vpn n = some s := by
  induction n with
  | zero =>
    intro m pt a vpn _ _ _ _
    exact ⟨_, rfl⟩
  | succ k ih =>
    intro m pt a vpn hInv hnone hhi hcap
    obtain ⟨s, hone⟩ := MapArea.map_one_succeeds m pt a vpn hInv
      (hnone vpn (by omega) (by omega)) (by omega)
    obtain ⟨sm, sa, spt⟩ := s
    obtain ⟨_, SInv, Slb, Sub, _, _, _, _, _, ⟨f0, Supd, _, _⟩, _⟩ :=
      MapArea.map_one_spec m pt a vpn hInv sm sa spt hone
    obtain ⟨s2, h2⟩ := ih sm spt sa (vpn + 1) SInv
      (by
        intro v h1 h2
        rw [Supd v, if_neg (by omega)]
        exact hnone v (by omega) (by omega))
      (by omega) (by omega)
    unfold MapArea.mapFrom
    rw [hone]
    simp only [Option.some_bind]
    rw [h2]
    exact ⟨_, rfl⟩

/-- `MapArea::unmap_one` succeeds on a valid-mapped vpn. -/
theorem MapArea.unmap_one_succeeds (m : Machine) (pt : PageTable) (a : MapArea) (vpn : Nat)
    (hsome : PageTable.transValid m pt vpn ≠ none) :
    ∃ s, MapArea.unmap_one m pt a vpn = some s := by
  cases htv : PageTable.transValid m pt vpn with
  | none => exact absurd htv hsome
  | some pte =>
    obtain ⟨m2, hunm⟩ := PageTable.unmap_some_of_mapped m pt vpn pte htv
    unfold MapArea.unmap_one
    rw [hunm]
    exact ⟨_, rfl⟩

/-- The unmapping loop succeeds over a range of valid-mapped vpns below
`2 ^ 27`. -/
theorem MapArea.unmapFrom_succeeds (n : Nat) :
    ∀ (m : Machine) (pt : PageTable) (a : MapArea) (vpn : Nat),
    TableInv m pt →
    (∀ v, vpn ≤ v → v < vpn + n → PageTable.transValid m pt v ≠ none) →
    vpn + n ≤ 2 ^ 27 →
    ∃ s, MapArea.unmapFrom m pt a vpn n = some s := by
  induction n with
  | zero =>
    intro m pt a vpn _ _ _
    exact ⟨_, rfl⟩
  | succ k ih =>
    intro m pt a vpn hInv hsome hhi
    obtain ⟨s, hone⟩ := MapArea.unmap_one_succeeds m pt a vpn
      (hsome vpn (by omega) (by omega))
    obtain ⟨sm, sa⟩ := s
    obtain ⟨SInv, Snf, _, _, _, _, _, Supd, _⟩ :=
      MapArea.unmap_one_spec m pt a vpn hInv sm sa hone
    obtain ⟨s2, h2⟩ := ih sm pt sa (vpn + 1) SInv
      (by
        intro v h1 h2
        rw [Supd v, if_neg (by omega)]
        exact hsome v (by omega) (by omega))
      (by omega)
    unfold MapArea.unmapFrom
    rw [hone]
    simp only [Option.some_bind]
    rw [h2]
    exact ⟨_, rfl⟩

/-- Claim C7 (confirmed): for a mapped segment with end `O` and any
page-aligned `E` between its start and `O`, `shrink_to(E)` followed by
`append_to(O)` succeeds and restores exactly the original set of valid
mappings with the same permission bits; frame identities may differ, so
only the flag bytes of the entries are compared. -/
theorem claim_C7 (m : Machine) (pt : PageTable) (a : MapArea) (E : Nat)
    (hInv : TableInv m pt)
    (hmapped : ∀ v, a.vpn_start ≤ v → v < a.vpn_end → ∃ f,
      PageTable.transValid m pt v =
        some (PageTableEntry.new f (PTEFlags.orV a.map_perm)))
    (hSE : a.vpn_start ≤ E) (hEO : E ≤ a.vpn_end) (hO : a.vpn_end ≤ 2 ^ 27)
    (hcap : m.nextFrame + 3 * (a.vpn_end - E) ≤ 2 ^ 44) :
    ∃ m1 a1, MapArea.shrink_to m pt a E = some (m1, a1) ∧
    ∃ m2 a2 pt2, MapArea.append_to m1 pt a1 a.vpn_end = some (m2, a2, pt2) ∧
      a2.vpn_start = a.vpn_start ∧ a2.vpn_end = a.vpn_end ∧
      pt2.root_ppn = pt.root_ppn ∧
      (∀ w, PageTable.transValid m2 pt2 w = none ↔
        PageTable.transValid m pt w = none) ∧
      (∀ w x y, PageTable.transValid m2 pt2 w = some x →
        PageTable.transValid m pt w = some y →
        PageTableEntry.flags x = PageTableEntry.flags y) := by
  -- the shrink loop succeeds
  obtain ⟨s, hloop⟩ := MapArea.unmapFrom_succeeds (a.vpn_end - E) m pt a E hInv
    (fun v h1 h2 => by
      obtain ⟨f, hf⟩ := hmapped v (by omega) (by omega)
      rw [hf]
      simp)
    (by omega)
  obtain ⟨m1, a1'⟩ := s
  obtain ⟨IInv, Inf, Ist, Ien, Ity, Ipm, _, Ipres, Ifinal, _⟩ :=
    MapArea.unmapFrom_spec (a.vpn_end - E) m pt a E m1 a1' hInv hloop
  have hshrink : MapArea.shrink_to m pt a E =
      some (m1, { a1' with vpn_end := E }) := by
    unfold MapArea.shrink_to
    rw [if_neg (by omega : ¬ a.vpn_end < E), hloop]
    simp only [Option.some_bind]
    rw [if_neg (by omega : ¬ E < a.vpn_start)]
  refine ⟨m1, { a1' with vpn_end := E }, hshrink, ?_⟩
  -- the append loop succeeds
  obtain ⟨s2, hloop2⟩ := MapArea.mapFrom_succeeds (a.vpn_end - E) m1 pt
    { a1' with vpn_end := E } E IInv
    (fun v h1 h2 => Ifinal v (by omega) (by omega))
    (by omega) (by omega)
  obtain ⟨m2, a2', pt2⟩ := s2
  obtain ⟨Jroot, JInv, Jlb, Jst, Jen, Jty, Jpm, Jpre, Jpres, Jval, Jprov⟩ :=
    MapArea.mapFrom_spec (a.vpn_end - E) m1 pt { a1' with vpn_end := E } E
      m2 a2' pt2 IInv hloop2
  have happend : MapArea.append_to m1 pt { a1' with vpn_end := E } a.vpn_end =
      some (m2, { a2' with vpn_end := a.vpn_end }, pt2) := by
    unfold MapArea.append_to
    dsimp only
    rw [if_neg (by omega : ¬ a.vpn_end < E), hloop2]
    simp only [Option.some_bind]
    rw [if_neg (by rw [Jst]; dsimp only; omega : ¬ a.vpn_end < a2'.vpn_start)]
  refine ⟨m2, { a2' with vpn_end := a.vpn_end }, pt2, happend,
    by dsimp only; rw [Jst]; dsimp only; exact Ist, rfl, Jroot, ?_, ?_⟩
  · -- validity of translations is restored everywhere
    intro w
    by_cases hw : ∃ v, E ≤ v ∧ v < a.vpn_end ∧ w % 2 ^ 27 = v % 2 ^ 27
    · obtain ⟨v, hv1, hv2, hww⟩ := hw
      obtain ⟨f2, hf2, _, _⟩ := Jval v (by omega) (by omega)
      obtain ⟨f, hf⟩ := hmapped v (by omega) (by omega)
      rw [transValid_congr_mod m2 pt2 w v hww, transValid_congr_mod m pt w v hww,
        hf2, hf]
      simp
    · push_neg at hw
      rw [Jpres w (fun v h1 h2 hcon => hw v h1 (by omega) hcon),
        Ipres w (fun v h1 h2 hcon => hw v h1 (by omega) hcon)]
  · -- permission bits are restored everywhere
    intro w x y hx hy
    by_cases hw : ∃ v, E ≤ v ∧ v < a.vpn_end ∧ w % 2 ^ 27 = v % 2 ^ 27
    · obtain ⟨v, hv1, hv2, hww⟩ := hw
      obtain ⟨f2, hf2, _, _⟩ := Jval v (by omega) (by omega)
      obtain ⟨f, hf⟩ := hmapped v (by omega) (by omega)
      rw [transValid_congr_mod m2 pt2 w v hww, hf2] at hx
      rw [transValid_congr_mod m pt w v hww, hf] at hy
      injection hx with hx
      injection hy with hy
      rw [← hx, ← hy]
      dsimp only
      rw [PageTableEntry.flags_new_mod, PageTableEntry.flags_new_mod]
      exact congrArg (fun z => PTEFlags.orV z % 2 ^ 8) Ipm
    · push_neg at hw
      rw [Jpres w (fun v h1 h2 hcon => hw v h1 (by omega) hcon),
        Ipres w (fun v h1 h2 hcon => hw v h1 (by omega) hcon)] at hx
      rw [hx] at hy
      injection hy with hy
      rw [hy]

/-- Witness for C7: shrink the mapped segment `[1, 3)` to end 2, then
append back to 3. -/
theorem claim_C7_witness :
    ∃ m1 a1, MapArea.shrink_to mC7 ptC7 aC7 2 = some (m1, a1) ∧
    ∃ m2 a2 pt2, MapArea.append_to m1 ptC7 a1 aC7.vpn_end = some (m2, a2, pt2) ∧
      a2.vpn_start = aC7.vpn_start ∧ a2.vpn_end = aC7.vpn_end ∧
      pt2.root_ppn = ptC7.root_ppn ∧
      (∀ w, PageTable.transValid m2 pt2 w = none ↔
        PageTable.transValid mC7 ptC7 w = none) ∧
      (∀ w x y, PageTable.transValid m2 pt2 w = some x →
        PageTable.transValid mC7 ptC7 w = some y →
        PageTableEntry.flags x = PageTableEntry.flags y) := by
  have hInvA : TableInv mA ptA := (PageTable.new_spec mach0 mA ptA rfl).1
  have hrun : MapArea.mapFrom mA ptA c7area 1 2 = some (mC7, aC7, ptC7) := rfl
  have hInv : TableInv mC7 ptC7 :=
    (MapArea.mapFrom_spec 2 mA ptA c7area 1 mC7 aC7 ptC7 hInvA hrun).2.1
  refine claim_C7 mC7 ptC7 aC7 2 hInv ?_ (by decide) (by decide) (by decide) (by decide)
  intro v h1 h2
  have hb1 : (1 : Nat) ≤ v := h1
  have hb2 : v < 3 := h2
  interval_cases v
  · exact ⟨1, by decide⟩
  · exact ⟨4, by decide⟩

/-- The unmap loop never changes the stored range bounds. -/
theorem MapArea.unmapFrom_start (n : Nat) :
    ∀ (m : Machine) (pt : PageTable) (a : MapArea) (vpn : Nat)
      (m1 : Machine) (a1 : MapArea),
    MapArea.unmapFrom m pt a vpn n = some (m1, a1) →
    a1.vpn_start = a.vpn_start := by
  induction n with
  | zero =>
    intro m pt a vpn m1 a1 hrun
    unfold MapArea.unmapFrom at hrun
    simp only [Option.some.injEq, Prod.mk.injEq] at hrun
    rw [← hrun.2]
  | succ k ih =>
    intro m pt a vpn m1 a1 hrun
    unfold MapArea.unmapFrom at hrun
    cases hone : MapArea.unmap_one m pt a vpn with
    | none => rw [hone] at hrun; exact absurd hrun (by simp)
    | some s =>
      obtain ⟨sm, sa⟩ := s
      rw [hone] at hrun
      simp only [Option.some_bind] at hrun
      have hsa : sa.vpn_start = a.vpn_start := by
        unfold MapArea.unmap_one at hone
        cases hunm : PageTable.unmap m pt vpn with
        | none => rw [hunm] at hone; exact absurd hone (by simp)
        | some m2 =>
          rw [hunm] at hone
          simp only [Option.map_some', Option.some.injEq, Prod.mk.injEq] at hone
          rw [← hone.2]
          by_cases hty : a.map_type = MapType.Framed <;> simp [hty]
      rw [ih sm pt sa (vpn + 1) m1 a1 hrun, hsa]

/-- The map loop never changes the stored range bounds. -/
theorem MapArea.mapFrom_start (n : Nat) :
    ∀ (m : Machine) (pt : PageTable) (a : MapArea) (vpn : Nat)
      (m1 : Machine) (a1 : MapArea) (pt1 : PageTable),
    MapArea.mapFrom m pt a vpn n = some (m1, a1, pt1) →
    a1.vpn_start = a.vpn_start := by
  induction n with
  | zero =>
    intro m pt a vpn m1 a1 pt1 hrun
    unfold MapArea.mapFrom at hrun
    simp only [Option.some.injEq, Prod.mk.injEq] at hrun
    rw [← hrun.2.1]
  | succ k ih =>
    intro m pt a vpn m1 a1 pt1 hrun
    unfold MapArea.mapFrom at hrun
    cases hone : MapArea.map_one m pt a vpn with
    | none => rw [hone] at hrun; exact absurd hrun (by simp)
    | some s =>
      obtain ⟨sm, sa, spt⟩ := s
      rw [hone] at hrun
      simp only [Option.some_bind] at hrun
      have hsa : sa.vpn_start = a.vpn_start := by
        unfold MapArea.map_one at hone
        cases hty : a.map_type with
        | Identical =>
          rw [hty] at hone
          cases hpm : PageTable.map m pt vpn vpn a.map_perm with
          | none => rw [hpm] at hone; exact absurd hone (by simp)
          | some s2 =>
            rw [hpm] at hone
            simp only [Option.map_some', Option.some.injEq, Prod.mk.injEq] at hone
            rw [← hone.2.1]
        | Framed =>
          rw [hty] at hone
          cases hal : m.alloc with
          | none => rw [hal] at hone; exact absurd hone (by simp)
          | some p =>
            rw [hal] at hone
            simp only [Option.some_bind] at hone
            cases hpm : PageTable.map p.1 pt vpn p.2 a.map_perm with
            | none => rw [hpm] at hone; exact absurd hone (by simp)
            | some s2 =>
              rw [hpm] at hone
              simp only [Option.map_some', Option.some.injEq, Prod.mk.injEq] at hone
              rw [← hone.2.1]
      rw [ih sm spt sa (vpn + 1) m1 a1 pt1 hrun, hsa]

/-- A successful `MapArea::shrink_to` keeps the start and sets the end. -/
theorem MapArea.shrink_to_fields (m : Machine) (pt : PageTable) (a : MapArea)
    (ne : Nat) (m1 : Machine) (a1 : MapArea)
    (hrun : MapArea.shrink_to m pt a ne = some (m1, a1)) :
    a1.vpn_start = a.vpn_start ∧ a1.vpn_end = ne := by
  unfold MapArea.shrink_to at hrun
  by_cases hg : a.vpn_end < ne
  · rw [if_pos hg] at hrun; exact absurd hrun (by simp)
  · rw [if_neg hg] at hrun
    cases hloop : MapArea.unmapFrom m pt a ne (a.vpn_end - ne) with
    | none => rw [hloop] at hrun; exact absurd hrun (by simp)
    | some s =>
      obtain ⟨sm, sa⟩ := s
      rw [hloop] at hrun
      simp only [Option.some_bind] at hrun
      by_cases hg2 : ne < a.vpn_start
      · rw [if_pos hg2] at hrun; exact absurd hrun (by simp)
      · rw [if_neg hg2] at hrun
        simp only [Option.some.injEq, Prod.mk.injEq] at hrun
        rw [← hrun.2]
        exact ⟨MapArea.unmapFrom_start (a.vpn_end - ne) m pt a ne sm sa hloop, rfl⟩

/-- A successful `MapArea::append_to` keeps the start and sets the end. -/
theorem MapArea.append_to_fields (m : Machine) (pt : PageTable) (a : MapArea)
    (ne : Nat) (m1 : Machine) (a1 : MapArea) (pt1 : PageTable)
    (hrun : MapArea.append_to m pt a ne = some (m1, a1, pt1)) :
    a1.vpn_start = a.vpn_start ∧ a1.vpn_end = ne := by
  unfold MapArea.append_to at hrun
  by_cases hg : ne < a.vpn_end
  · rw [if_pos hg] at hrun; exact absurd hrun (by simp)
  · rw [if_neg hg] at hrun
    cases hloop : MapArea.mapFrom m pt a a.vpn_end (ne - a.vpn_end) with
    | none => rw [hloop] at hrun; exact absurd hrun (by simp)
    | some s =>
      obtain ⟨sm, sa, spt⟩ := s
      rw [hloop] at hrun
      simp only [Option.some_bind] at hrun
      by_cases hg2 : ne < sa.vpn_start
      · rw [if_pos hg2] at hrun; exact absurd hrun (by simp)
      · rw [if_neg hg2] at hrun
        simp only [Option.some.injEq, Prod.mk.injEq] at hrun
        rw [← hrun.2.1]
        exact ⟨MapArea.mapFrom_start (ne - a.vpn_end) m pt a a.vpn_end sm sa spt hloop, rfl⟩

/-- When no area's range starts at `sv`, the shrink search is a no-op
reporting `false`. -/
theorem MemorySet.shrinkAreas_no_match :
    ∀ (areas : List MapArea) (m : Machine) (pt : PageTable) (sv ne : Nat),
    (∀ a ∈ areas, a.vpn_start ≠ sv) →
    MemorySet.shrinkAreas m pt areas sv ne = some (m, areas, false) := by
  intro areas
  induction areas with
  | nil => intro m pt sv ne _; rfl
  | cons a rest ih =>
    intro m pt sv ne hno
    unfold MemorySet.shrinkAreas
    rw [if_neg (hno a (by simp))]
    rw [ih m pt sv ne (fun b hb => hno b (by simp [hb]))]
    rfl

/-- When some area's range starts at `sv`, a completed shrink search
reports `true` and resizes exactly the first matching area. -/
theorem MemorySet.shrinkAreas_found :
    ∀ (areas : List MapArea) (m : Machine) (pt : PageTable) (sv ne : Nat)
      (r : Machine × List MapArea × Bool),
    (∃ a ∈ areas, a.vpn_start = sv) →
    MemorySet.shrinkAreas m pt areas sv ne = some r →
    r.2.2 = true ∧ ∃ pre amatch rest a2, areas = pre ++ amatch :: rest ∧
      (∀ c ∈ pre, c.vpn_start ≠ sv) ∧ amatch.vpn_start = sv ∧
      r.2.1 = pre ++ a2 :: rest ∧
      a2.vpn_start = amatch.vpn_start ∧ a2.vpn_end = ne := by
  intro areas
  induction areas with
  | nil =>
    intro m pt sv ne r hex _
    obtain ⟨a, ha, _⟩ := hex
    exact absurd ha (by simp)
  | cons a rest ih =>
    intro m pt sv ne r hex hrun
    unfold MemorySet.shrinkAreas at hrun
    by_cases hm : a.vpn_start = sv
    · rw [if_pos hm] at hrun
      cases hs : MapArea.shrink_to m pt a ne with
      | none => rw [hs] at hrun; exact absurd hrun (by simp)
      | some s =>
        obtain ⟨sm, sa⟩ := s
        rw [hs] at hrun
        simp only [Option.map_some', Option.some.injEq] at hrun
        obtain ⟨hst, hen⟩ := MapArea.shrink_to_fields m pt a ne sm sa hs
        rw [← hrun]
        exact ⟨rfl, [], a, rest, sa, rfl, by simp, hm, rfl, hst, hen⟩
    · rw [if_neg hm] at hrun
      cases hs : MemorySet.shrinkAreas m pt rest sv ne with
      | none => rw [hs] at hrun; exact absurd hrun (by simp)
      | some s =>
        rw [hs] at hrun
        simp only [Option.map_some', Option.some.injEq] at hrun
        have hex2 : ∃ b ∈ rest, b.vpn_start = sv := by
          obtain ⟨b, hb, hbs⟩ := hex
          rcases (by simpa using hb : b = a ∨ b ∈ rest) with hba | hbr
          · exact absurd (hba ▸ hbs) hm
          · exact ⟨b, hbr, hbs⟩
        obtain ⟨hflag, pre, amatch, rest2, a2, hsplit, hpre, hmatch, hres, ha2s, ha2e⟩ :=
          ih m pt sv ne s hex2 hs
        rw [← hrun]
        refine ⟨hflag, a :: pre, amatch, rest2, a2, by rw [hsplit]; simp, ?_, hmatch,
          by simp only [List.cons_append]; rw [hres], ha2s, ha2e⟩
        intro c hc
        rcases (by simpa using hc : c = a ∨ c ∈ pre) with hca | hcp
        · rw [hca]; exact hm
        · exact hpre c hcp

/-- Append-search analogue of `shrinkAreas_no_match`. -/
theorem MemorySet.appendAreas_no_match :
    ∀ (areas : List MapArea) (m : Machine) (pt : PageTable) (sv ne : Nat),
    (∀ a ∈ areas, a.vpn_start ≠ sv) →
    MemorySet.appendAreas m pt areas sv ne = some (m, pt, areas, false) := by
  intro areas
  induction areas with
  | nil => intro m pt sv ne _; rfl
  | cons a rest ih =>
    intro m pt sv ne hno
    unfold MemorySet.appendAreas
    rw [if_neg (hno a (by simp))]
    rw [ih m pt sv ne (fun b hb => hno b (by simp [hb]))]
    rfl

/-- Append-search analogue of `shrinkAreas_found`. -/
theorem MemorySet.appendAreas_found :
    ∀ (areas : List MapArea) (m : Machine) (pt : PageTable) (sv ne : Nat)
      (r : Machine × PageTable × List MapArea × Bool),
    (∃ a ∈ areas, a.vpn_start = sv) →
    MemorySet.appendAreas m pt areas sv ne = some r →
    r.2.2.2 = true ∧ ∃ pre amatch rest a2, areas = pre ++ amatch :: rest ∧
      (∀ c ∈ pre, c.vpn_start ≠ sv) ∧ amatch.vpn_start = sv ∧
      r.2.2.1 = pre ++ a2 :: rest ∧
      a2.vpn_start = amatch.vpn_start ∧ a2.vpn_end = ne := by
  intro areas
  induction areas with
  | nil =>
    intro m pt sv ne r hex _
    obtain ⟨a, ha, _⟩ := hex
    exact absurd ha (by simp)
  | cons a rest ih =>
    intro m pt sv ne r hex hrun
    unfold MemorySet.appendAreas at hrun
    by_cases hm : a.vpn_start = sv
    · rw [if_pos hm] at hrun
      cases hs : MapArea.append_to m pt a ne with
      | none => rw [hs] at hrun; exact absurd hrun (by simp)
      | some s =>
        obtain ⟨sm, sa, spt⟩ := s
        rw [hs] at hrun
        simp only [Option.map_some', Option.some.injEq] at hrun
        obtain ⟨hst, hen⟩ := MapArea.append_to_fields m pt a ne sm sa spt hs
        rw [← hrun]
        exact ⟨rfl, [], a, rest, sa, rfl, by simp, hm, rfl, hst, hen⟩
    · rw [if_neg hm] at hrun
      cases hs : MemorySet.appendAreas m pt rest sv ne with
      | none => rw [hs] at hrun; exact absurd hrun (by simp)
      | some s =>
        rw [hs] at hrun
        simp only [Option.map_some', Option.some.injEq] at hrun
        have hex2 : ∃ b ∈ rest, b.vpn_start = sv := by
          obtain ⟨b, hb, hbs⟩ := hex
          rcases (by simpa using hb : b = a ∨ b ∈ rest) with hba | hbr
          · exact absurd (hba ▸ hbs) hm
          · exact ⟨b, hbr, hbs⟩
        obtain ⟨hflag, pre, amatch, rest2, a2, hsplit, hpre, hmatch, hres, ha2s, ha2e⟩ :=
          ih m pt sv ne s hex2 hs
        rw [← hrun]
        refine ⟨hflag, a :: pre, amatch, rest2, a2, by rw [hsplit]; simp, ?_, hmatch,
          by simp only [List.cons_append]; rw [hres], ha2s, ha2e⟩
        intro c hc
        rcases (by simpa using hc : c = a ∨ c ∈ pre) with hca | hcp
        · rw [hca]; exact hm
        · exact hpre c hcp

/-- Claim C8 (confirmed): `shrink_to`/`append_to` resize exactly when
some owned segment's range begins at the page of `start` — then they
report `true` and the first such segment's end becomes the page-aligned
`new_end` with all other segments untouched — and when no such segment
exists they report `false` and leave machine, page table and segments
completely unchanged. -/
theorem claim_C8 (m : Machine) (ms : MemorySet) (start new_end : Nat) :
    ((∀ a ∈ ms.areas, a.vpn_start ≠ vaFloor start) →
      MemorySet.shrink_to m ms start new_end = some (m, ms, false) ∧
      MemorySet.append_to m ms start new_end = some (m, ms, false)) ∧
    ((∃ a ∈ ms.areas, a.vpn_start = vaFloor start) →
      (∀ m1 ms1 b, MemorySet.shrink_to m ms start new_end = some (m1, ms1, b) →
        b = true ∧ ∃ pre amatch rest a2, ms.areas = pre ++ amatch :: rest ∧
          (∀ c ∈ pre, c.vpn_start ≠ vaFloor start) ∧
          amatch.vpn_start = vaFloor start ∧
          ms1.areas = pre ++ a2 :: rest ∧
          a2.vpn_start = amatch.vpn_start ∧ a2.vpn_end = vaCeil new_end) ∧
      (∀ m1 ms1 b, MemorySet.append_to m ms start new_end = some (m1, ms1, b) →
        b = true ∧ ∃ pre amatch rest a2, ms.areas = pre ++ amatch :: rest ∧
          (∀ c ∈ pre, c.vpn_start ≠ vaFloor start) ∧
          amatch.vpn_start = vaFloor start ∧
          ms1.areas = pre ++ a2 :: rest ∧
          a2.vpn_start = amatch.vpn_start ∧ a2.vpn_end = vaCeil new_end)) := by
  constructor
  · intro hno
    constructor
    · unfold MemorySet.shrink_to
      rw [MemorySet.shrinkAreas_no_match ms.areas m ms.page_table _ _ hno]
      rfl
    · unfold MemorySet.append_to
      rw [MemorySet.appendAreas_no_match ms.areas m ms.page_table _ _ hno]
      rfl
  · intro hex
    constructor
    · intro m1 ms1 b hrun
      unfold MemorySet.shrink_to at hrun
      cases hs : MemorySet.shrinkAreas m ms.page_table ms.areas
          (vaFloor start) (vaCeil new_end) with
      | none => rw [hs] at hrun; exact absurd hrun (by simp)
      | some s =>
        rw [hs] at hrun
        simp only [Option.map_some', Option.some.injEq, Prod.mk.injEq] at hrun
        obtain ⟨hflag, rest⟩ :=
          MemorySet.shrinkAreas_found ms.areas m ms.page_table _ _ s hex hs
        refine ⟨by rw [← hrun.2.2]; exact hflag, ?_⟩
        obtain ⟨pre, amatch, rest2, a2, h1, h2, h3, h4, h5, h6⟩ := rest
        exact ⟨pre, amatch, rest2, a2, h1, h2, h3, by rw [← hrun.2.1, h4], h5, h6⟩
    · intro m1 ms1 b hrun
      unfold MemorySet.append_to at hrun
      cases hs : MemorySet.appendAreas m ms.page_table ms.areas
          (vaFloor start) (vaCeil new_end) with
      | none => rw [hs] at hrun; exact absurd hrun (by simp)
      | some s =>
        rw [hs] at hrun
        simp only [Option.map_some', Option.some.injEq, Prod.mk.injEq] at hrun
        obtain ⟨hflag, rest⟩ :=
          MemorySet.appendAreas_found ms.areas m ms.page_table _ _ s hex hs
        refine ⟨by rw [← hrun.2.2]; exact hflag, ?_⟩
        obtain ⟨pre, amatch, rest2, a2, h1, h2, h3, h4, h5, h6⟩ := rest
        exact ⟨pre, amatch, rest2, a2, h1, h2, h3, by rw [← hrun.2.1, h4], h5, h6⟩

/-- Witness for C8: over the space owning the mapped segment `[1, 3)`,
a shrink at the non-matching start address `5 * 4096` is a reported
no-op, and a shrink at the matching start `4096` reports `true`. -/
theorem claim_C8_witness :
    MemorySet.shrink_to mC7 msC8 (5 * 4096) 4096 = some (mC7, msC8, false) ∧
    ((MemorySet.shrink_to mC7 msC8 4096 8192).map fun r => r.2.2) = some true := by
  constructor
  · exact ((claim_C8 mC7 msC8 (5 * 4096) 4096).1 (by decide)).1
  · have hpos := ((claim_C8 mC7 msC8 4096 8192).2 ⟨aC7, by simp [msC8], by decide⟩).1
    have hsome : (MemorySet.shrink_to mC7 msC8 4096 8192).isSome = true := by decide
    cases hr : MemorySet.shrink_to mC7 msC8 4096 8192 with
    | none => rw [hr] at hsome; exact absurd hsome (by simp)
    | some r =>
      obtain ⟨m1, ms1, b⟩ := r
      have := (hpos m1 ms1 b hr).1
      simp [this]

theorem Machine.read_writeBytes_ne (m : Machine) (p : Nat) (data : List Nat)
    (start srcLen q j : Nat) (h : q ≠ p) :
    (m.writeBytes p data start srcLen).read q j = m.read q j := by
  simp [Machine.writeBytes, Machine.read, h]

theorem Machine.nextFrame_writeBytes (m : Machine) (p : Nat) (data : List Nat)
    (start srcLen : Nat) :
    (m.writeBytes p data start srcLen).nextFrame = m.nextFrame := rfl

/-- Writing bytes into a non-node page changes no translation and
preserves the invariant. -/
theorem writeBytes_preserves (m : Machine) (pt : PageTable) (p : Nat)
    (data : List Nat) (start srcLen : Nat) (hInv : TableInv m pt)
    (hp : ¬ IsNode m pt p) :
    TableInv (m.writeBytes p data start srcLen) pt ∧
    (∀ w, PageTable.translate (m.writeBytes p data start srcLen) pt w =
      PageTable.translate m pt w) ∧
    (∀ q, IsNode (m.writeBytes p data start srcLen) pt q ↔ IsNode m pt q) := by
  have hroot : p ≠ pt.root_ppn := fun hc => hp (Or.inl hc)
  have hreadroot : ∀ j,
      (m.writeBytes p data start srcLen).read pt.root_ppn j = m.read pt.root_ppn j :=
    fun j => Machine.read_writeBytes_ne m p data start srcLen _ j (Ne.symm hroot)
  have hn1 : ∀ i0 q, chain0 m pt i0 = some q →
      ∀ j, (m.writeBytes p data start srcLen).read q j = m.read q j := by
    intro i0 q hq j
    refine Machine.read_writeBytes_ne m p data start srcLen q j ?_
    intro hc
    exact hp (Or.inr (Or.inl ⟨i0, hc ▸ hq⟩))
  have hn2 : ∀ i0 i1 q, chain1 m pt i0 i1 = some q →
      ∀ j, (m.writeBytes p data start srcLen).read q j = m.read q j := by
    intro i0 i1 q hq j
    refine Machine.read_writeBytes_ne m p data start srcLen q j ?_
    intro hc
    exact hp (Or.inr (Or.inr ⟨i0, i1, hc ▸ hq⟩))
  obtain ⟨hch0, hch1⟩ := chain_congr m (m.writeBytes p data start srcLen) pt hreadroot hn1
  refine ⟨TableInv_congr m _ pt hInv hreadroot hn1 (le_of_eq rfl),
    translate_congr m _ pt hreadroot hn1 hn2, ?_⟩
  intro q
  constructor
  · rintro (h | ⟨j, h⟩ | ⟨j0, j1, h⟩)
    · exact Or.inl h
    · exact Or.inr (Or.inl ⟨j, by rw [← hch0 j]; exact h⟩)
    · exact Or.inr (Or.inr ⟨j0, j1, by rw [← hch1 j0 j1]; exact h⟩)
  · rintro (h | ⟨j, h⟩ | ⟨j0, j1, h⟩)
    · exact Or.inl h
    · exact Or.inr (Or.inl ⟨j, by rw [hch0 j]; exact h⟩)
    · exact Or.inr (Or.inr ⟨j0, j1, by rw [hch1 j0 j1]; exact h⟩)

/-- A completed `copy_data` loop only writes into non-node data frames:
translations, nodes and the invariant are untouched. -/
theorem MapArea.copy_data_loop_spec (fuel : Nat) :
    ∀ (m : Machine) (pt : PageTable) (data : List Nat) (vpn start : Nat) (m2 : Machine),
    TableInv m pt →
    (∀ k, (k = 0 ∨ start + PAGE_SIZE * k < data.length) →
      ∀ pte, PageTable.translate m pt (vpn + k) = some pte →
        ¬ IsNode m pt (PageTableEntry.ppn pte)) →
    MapArea.copy_data_loop m pt data vpn start fuel = some m2 →
    TableInv m2 pt ∧ m2.nextFrame = m.nextFrame ∧
    (∀ w, PageTable.translate m2 pt w = PageTable.translate m pt w) ∧
    (∀ q, IsNode m2 pt q ↔ IsNode m pt q) := by
  induction fuel with
  | zero =>
    intro m pt data vpn start m2 hInv _ hrun
    unfold MapArea.copy_data_loop at hrun
    injection hrun with hrun
    subst hrun
    exact ⟨hInv, rfl, fun w => rfl, fun q => Iff.rfl⟩
  | succ k ih =>
    intro m pt data vpn start m2 hInv hsafe hrun
    unfold MapArea.copy_data_loop at hrun
    cases htr : PageTable.translate m pt vpn with
    | none => rw [htr] at hrun; exact absurd hrun (by simp)
    | some pte =>
      rw [htr] at hrun
      simp only at hrun
      have hnode : ¬ IsNode m pt (PageTableEntry.ppn pte) := by
        refine hsafe 0 (Or.inl rfl) pte ?_
        rw [Nat.add_zero]
        exact htr
      obtain ⟨hInvW, htrW, hndW⟩ :=
        writeBytes_preserves m pt (PageTableEntry.ppn pte) data start
          (min data.length (start + PAGE_SIZE) - start) hInv hnode
      by_cases hbr : data.length ≤ start + PAGE_SIZE
      · rw [if_pos hbr] at hrun
        injection hrun with hrun
        subst hrun
        exact ⟨hInvW, rfl, htrW, hndW⟩
      · rw [if_neg hbr] at hrun
        obtain ⟨hInv2, hnf2, htr2, hnd2⟩ :=
          ih (m.writeBytes (PageTableEntry.ppn pte) data start
              (min data.length (start + PAGE_SIZE) - start)) pt data
            (vpn + 1) (start + PAGE_SIZE) m2 hInvW
            (by
              intro k2 hk2 pte2 htr2
              rw [htrW] at htr2
              rw [hndW]
              refine hsafe (k2 + 1) (Or.inr ?_) pte2 (by rw [show vpn + (k2 + 1) = vpn + 1 + k2 by ring]; exact htr2)
              rcases hk2 with hk0 | hklt
              · subst hk0; omega
              · unfold PAGE_SIZE at *; omega)
            hrun
        refine ⟨hInv2, by rw [hnf2, Machine.nextFrame_writeBytes], ?_, ?_⟩
        · intro w
          rw [htr2 w, htrW w]
        · intro q
          rw [hnd2 q, hndW q]

/-- Full effect of a successful `MemorySet::push`: the pushed segment's
range was unmapped, becomes valid-mapped with the segment's permissions,
and all other translations survive; initial-data copying (which requires
a nonempty framed segment and data no larger than the segment) touches
only data frames. -/
theorem MemorySet.push_spec (m : Machine) (ms : MemorySet) (area : MapArea)
    (data : Option (List Nat)) (m1 : Machine) (ms1 : MemorySet)
    (hInv : TableInv m ms.page_table)
    (hdata : data = none ∨ ∃ d, data = some d ∧
      area.vpn_start < area.vpn_end ∧
      d.length ≤ (area.vpn_end - area.vpn_start) * PAGE_SIZE)
    (hrun : MemorySet.push m ms area data = some (m1, ms1)) :
    ms1.page_table.root_ppn = ms.page_table.root_ppn ∧
    TableInv m1 ms1.page_table ∧
    m.nextFrame ≤ m1.nextFrame ∧
    (∀ v, area.vpn_start ≤ v → v < area.vpn_end →
      PageTable.transValid m ms.page_table v = none) ∧
    (∀ w, (∀ v, area.vpn_start ≤ v → v < area.vpn_end → w % 2 ^ 27 ≠ v % 2 ^ 27) →
      PageTable.transValid m1 ms1.page_table w =
        PageTable.transValid m ms.page_table w) ∧
    (∀ v, area.vpn_start ≤ v → v < area.vpn_end → ∃ f,
      PageTable.transValid m1 ms1.page_table v =
        some (PageTableEntry.new f (PTEFlags.orV area.map_perm))) ∧
    (∀ p, IsNode m1 ms1.page_table p → IsNode m ms.page_table p ∨ m.nextFrame ≤ p) := by
  unfold MemorySet.push at hrun
  cases hmap : MapArea.map m ms.page_table area with
  | none => rw [hmap] at hrun; exact absurd hrun (by simp)
  | some s =>
    obtain ⟨sm, sa, spt⟩ := s
    rw [hmap] at hrun
    simp only [Option.some_bind] at hrun
    unfold MapArea.map at hmap
    obtain ⟨Sroot, SInv, Slb, Sst, Sen, Sty, Spm, Spre, Spres, Sval, Sprov⟩ :=
      MapArea.mapFrom_spec (area.vpn_end - area.vpn_start) m ms.page_table area
        area.vpn_start sm sa spt hInv hmap
    have hpre : ∀ v, area.vpn_start ≤ v → v < area.vpn_end →
        PageTable.transValid m ms.page_table v = none :=
      fun v h1 h2 => Spre v h1 (by omega)
    have hpres1 : ∀ w,
        (∀ v, area.vpn_start ≤ v → v < area.vpn_end → w % 2 ^ 27 ≠ v % 2 ^ 27) →
        PageTable.transValid sm spt w = PageTable.transValid m ms.page_table w :=
      fun w hw => Spres w (fun v h1 h2 => hw v h1 (by omega))
    cases data with
    | none =>
      simp only [Option.some.injEq, Prod.mk.injEq] at hrun
      obtain ⟨hm1, hms1⟩ := hrun
      subst hm1
      rw [← hms1]
      refine ⟨Sroot, SInv, Slb, hpre, hpres1, ?_, Sprov⟩
      intro v h1 h2
      obtain ⟨f, hf, _, _⟩ := Sval v h1 (by omega)
      exact ⟨f, hf⟩
    | some d =>
      dsimp only at hrun
      rcases hdata with hcon | ⟨d2, hd2, hne, hlen⟩
      · exact absurd hcon (by simp)
      · have hdd : d2 = d := by injection hd2 with h; exact h.symm
        rw [hdd] at hlen
        unfold MapArea.copy_data at hrun
        by_cases hfty : sa.map_type = MapType.Framed
        · rw [if_pos hfty] at hrun
          have haty : area.map_type = MapType.Framed := by rw [← Sty]; exact hfty
          cases hloop : MapArea.copy_data_loop sm spt d sa.vpn_start 0
              (d.length / PAGE_SIZE + 1) with
          | none => rw [hloop] at hrun; exact absurd hrun (by simp)
          | some mcp =>
            rw [hloop] at hrun
            simp only [Option.map_some', Option.some.injEq, Prod.mk.injEq] at hrun
            obtain ⟨hm1, hms1⟩ := hrun
            subst hm1
            obtain ⟨CInv, Cnf, Ctr, Cnd⟩ :=
              MapArea.copy_data_loop_spec (d.length / PAGE_SIZE + 1) sm spt d
                sa.vpn_start 0 mcp SInv
                (by
                  intro k hk pte htr
                  have hkr : area.vpn_start ≤ sa.vpn_start + k ∧
                      sa.vpn_start + k < area.vpn_end := by
                    rcases hk with hk0 | hklt
                    · subst hk0; rw [Sst]; omega
                    · rw [Sst]
                      unfold PAGE_SIZE at hklt hlen
                      omega
                  obtain ⟨f, hf, _, hfr⟩ := Sval (sa.vpn_start + k) (by rw [← Sst]; omega)
                    (by omega)
                  obtain ⟨hfn, hflt, _⟩ := hfr haty
                  have htr2 : PageTable.translate sm spt (sa.vpn_start + k) =
                      some (PageTableEntry.new f (PTEFlags.orV area.map_perm)) :=
                    translate_of_transValid _ _ _ _ hf
                  rw [htr2] at htr
                  injection htr with htr
                  rw [← htr, PageTableEntry.ppn_new f _ hflt]
                  exact hfn)
                hloop
            have hcv : ∀ w, PageTable.transValid mcp spt w =
                PageTable.transValid sm spt w := by
              intro w
              rw [transValid_eq_bind, transValid_eq_bind, Ctr w]
            rw [← hms1]
            refine ⟨Sroot, CInv, by omega, hpre, ?_, ?_, ?_⟩
            · intro w hw
              rw [hcv w]
              exact hpres1 w hw
            · intro v h1 h2
              obtain ⟨f, hf, _, _⟩ := Sval v h1 (by omega)
              exact ⟨f, by rw [hcv v]; exact hf⟩
            · intro p hp
              exact Sprov p ((Cnd p).1 hp)
        · rw [if_neg hfty] at hrun
          exact absurd hrun (by simp)

theorem lastLoadEnd_cons (ph : ProgHeader) (rest : List ProgHeader) (acc : Nat) :
    lastLoadEnd (ph :: rest) acc =
      lastLoadEnd rest
        (if ph.is_load then vaCeil (ph.virtual_addr + ph.mem_size) else acc) := rfl

theorem vaFloor_lt_vaCeil (va ms : Nat) (h : ms ≠ 0) :
    vaFloor va < vaCeil (va + ms) := by
  unfold vaFloor vaCeil PAGE_SIZE
  omega

theorem memsize_le_pages (va ms : Nat) :
    ms ≤ (vaCeil (va + ms) - vaFloor va) * PAGE_SIZE := by
  unfold vaFloor vaCeil PAGE_SIZE
  omega

/-- Full effect of a successful `from_elf` program-header loop: every
loadable header (nonempty, file size within memory size) is pushed, the
returned `max_end_vpn` is the last loadable header's end page, and
translations aliasing no loadable range are untouched. -/
theorem MemorySet.loadPhs_spec (phs : List ProgHeader) :
    ∀ (m : Machine) (ms : MemorySet) (input : List Nat) (acc : Nat)
      (m1 : Machine) (ms1 : MemorySet) (maxEnd : Nat),
    TableInv m ms.page_table →
    (∀ ph ∈ phs, ph.is_load = true → ph.mem_size ≠ 0 ∧ ph.file_size ≤ ph.mem_size) →
    MemorySet.loadPhs m ms input phs acc = some (m1, ms1, maxEnd) →
    ms1.page_table.root_ppn = ms.page_table.root_ppn ∧
    TableInv m1 ms1.page_table ∧
    m.nextFrame ≤ m1.nextFrame ∧
    maxEnd = lastLoadEnd phs acc ∧
    (∀ w, ¬ InLoadRange phs w →
      PageTable.transValid m1 ms1.page_table w =
        PageTable.transValid m ms.page_table w) ∧
    (∀ p, IsNode m1 ms1.page_table p → IsNode m ms.page_table p ∨ m.nextFrame ≤ p) := by
  induction phs with
  | nil =>
    intro m ms input acc m1 ms1 maxEnd hInv _ hrun
    unfold MemorySet.loadPhs at hrun
    simp only [Option.some.injEq, Prod.mk.injEq] at hrun
    obtain ⟨hm, hms, hmax⟩ := hrun
    subst hm hms hmax
    exact ⟨rfl, hInv, le_refl _, rfl, fun w _ => rfl, fun p hp => Or.inl hp⟩
  | cons ph rest ih =>
    intro m ms input acc m1 ms1 maxEnd hInv hphs hrun
    unfold MemorySet.loadPhs at hrun
    by_cases hload : ph.is_load = true
    · rw [if_pos hload] at hrun
      by_cases hoff : ph.offset + ph.file_size ≤ input.length
      · rw [if_pos hoff] at hrun
        cases hpush : MemorySet.push m ms
            (MapArea.new ph.virtual_addr (ph.virtual_addr + ph.mem_size)
              MapType.Framed
              (16 + (if ph.flag_r then 2 else 0) + (if ph.flag_w then 4 else 0)
                + (if ph.flag_x then 8 else 0)))
            (some ((input.drop ph.offset).take ph.file_size)) with
        | none => rw [hpush] at hrun; exact absurd hrun (by simp)
        | some s =>
          obtain ⟨sm, sms⟩ := s
          rw [hpush] at hrun
          simp only [Option.some_bind] at hrun
          obtain ⟨hms0, hfs⟩ := hphs ph (by simp) hload
          obtain ⟨Proot, PInv, Plb, _, Ppres, _, Pprov⟩ :=
            MemorySet.push_spec m ms _ _ sm sms hInv
              (Or.inr ⟨(input.drop ph.offset).take ph.file_size, rfl,
                vaFloor_lt_vaCeil ph.virtual_addr ph.mem_size hms0,
                by
                  have h1 : ((input.drop ph.offset).take ph.file_size).length ≤
                      ph.file_size :=
                    List.length_take_le _ _
                  have h2 := memsize_le_pages ph.virtual_addr ph.mem_size
                  calc ((input.drop ph.offset).take ph.file_size).length
                      ≤ ph.mem_size := by omega
                    _ ≤ _ := h2⟩)
              hpush
          obtain ⟨Iroot, IInv, Ilb, Imax, Ipres, Iprov⟩ :=
            ih sm sms input _ m1 ms1 maxEnd PInv
              (fun ph2 h2 hl2 => hphs ph2 (by simp [h2]) hl2) hrun
          refine ⟨by rw [Iroot, Proot], IInv, by omega, ?_, ?_, ?_⟩
          · rw [Imax, lastLoadEnd_cons, if_pos hload]
            exact rfl
          · intro w hw
            have hnrest : ¬ InLoadRange rest w := by
              intro ⟨ph2, h2, hl2, hv⟩
              exact hw ⟨ph2, by simp [h2], hl2, hv⟩
            rw [Ipres w hnrest]
            refine Ppres w ?_
            intro v h1 h2 hcon
            exact hw ⟨ph, by simp, hload, v, h1, h2, hcon⟩
          · intro p hp
            rcases Iprov p hp with h | h
            · rcases Pprov p h with h2 | h2
              · exact Or.inl h2
              · exact Or.inr h2
            · exact Or.inr (by omega)
      · rw [if_neg hoff] at hrun
        exact absurd hrun (by simp)
    · rw [if_neg hload] at hrun
      obtain ⟨Iroot, IInv, Ilb, Imax, Ipres, Iprov⟩ :=
        ih m ms input acc m1 ms1 maxEnd hInv
          (fun ph2 h2 hl2 => hphs ph2 (by simp [h2]) hl2) hrun
      refine ⟨Iroot, IInv, Ilb, ?_, ?_, Iprov⟩
      · rw [Imax, lastLoadEnd_cons, if_neg hload]
      · intro w hw
        refine Ipres w ?_
        intro ⟨ph2, h2, hl2, hv⟩
        exact hw ⟨ph2, by simp [h2], hl2, hv⟩

/-- Effect of a successful `map_trampoline`: exactly the top-page vpn
gains the `R|X` entry to the trampoline frame. -/
theorem MemorySet.map_trampoline_spec (m : Machine) (ms : MemorySet) (spp : Nat)
    (m1 : Machine) (ms1 : MemorySet) (hInv : TableInv m ms.page_table)
    (hrun : MemorySet.map_trampoline m ms spp = some (m1, ms1)) :
    ms1.page_table.root_ppn = ms.page_table.root_ppn ∧
    TableInv m1 ms1.page_table ∧ m.nextFrame ≤ m1.nextFrame ∧
    (∀ w, PageTable.transValid m1 ms1.page_table w =
      if w % 2 ^ 27 = vaFloor TRAMPOLINE % 2 ^ 27 then
        some (PageTableEntry.new spp (PTEFlags.orV (2 ||| 8)))
      else PageTable.transValid m ms.page_table w) ∧
    (∀ p, IsNode m1 ms1.page_table p → IsNode m ms.page_table p ∨ m.nextFrame ≤ p) := by
  unfold MemorySet.map_trampoline at hrun
  cases hpm : PageTable.map m ms.page_table (vaFloor TRAMPOLINE) spp (2 ||| 8) with
  | none => rw [hpm] at hrun; exact absurd hrun (by simp)
  | some s =>
    obtain ⟨sm, spt⟩ := s
    rw [hpm] at hrun
    simp only [Option.map_some', Option.some.injEq, Prod.mk.injEq] at hrun
    obtain ⟨hm1, hms1⟩ := hrun
    subst hm1
    obtain ⟨hroot, hlb, _, hInv1, _, hupd, hprov⟩ :=
      PageTable.map_spec m ms.page_table (vaFloor TRAMPOLINE) spp (2 ||| 8) hInv
        sm spt hpm
    rw [← hms1]
    exact ⟨hroot, hInv1, hlb, hupd, hprov⟩

/-- Master trace of a successful `from_elf` (loadable headers nonempty
with file size within memory size): the returned stack top and entry
point, the final invariant, the trap-context mapping, and — when every
loadable segment ends at or below the code's guard page `g` (the case
exactly when the last loadable header extends highest) and
`g + 4 ≤ 2 ^ 27` — the unmappedness of the guard page. -/
theorem MemorySet.from_elf_spec (m : Machine) (elf : ElfImage) (spp : Nat)
    (mF : Machine) (msF : MemorySet) (sp ep : Nat)
    (hphs : ∀ ph ∈ elf.phs, ph.is_load = true →
      ph.mem_size ≠ 0 ∧ ph.file_size ≤ ph.mem_size)
    (hrun : MemorySet.from_elf m elf spp = some (mF, msF, sp, ep)) :
    sp = lastLoadEnd elf.phs 0 * PAGE_SIZE + PAGE_SIZE + USER_STACK_SIZE ∧
    ep = elf.entry_point ∧
    TableInv mF msF.page_table ∧
    (∃ f, PageTable.transValid mF msF.page_table (vaFloor TRAP_CONTEXT_BASE) =
      some (PageTableEntry.new f (PTEFlags.orV (2 ||| 4)))) ∧
    (lastLoadEnd elf.phs 0 + 4 ≤ 2 ^ 27 →
      (∀ ph ∈ elf.phs, ph.is_load = true →
        vaCeil (ph.virtual_addr + ph.mem_size) ≤ lastLoadEnd elf.phs 0) →
      PageTable.transValid mF msF.page_table (lastLoadEnd elf.phs 0) = none) := by
  unfold MemorySet.from_elf at hrun
  simp only [MemorySet.new_bare, Option.map_eq_some', Option.bind_eq_some,
    Option.ite_none_right_eq_some, Prod.mk.injEq] at hrun
  obtain ⟨s0, ⟨pn, hpn, hs0⟩, s1, htr, hmagic, s2, hlp, s3, hp3, s4, hp4, s5, hp5,
    hm5, hms5, hsp, hep⟩ := hrun
  obtain ⟨mN, pnpt⟩ := pn
  subst hs0
  obtain ⟨mT, msT⟩ := s1
  obtain ⟨mL, msL, maxEnd⟩ := s2
  obtain ⟨m3, ms3⟩ := s3
  obtain ⟨m4, ms4⟩ := s4
  obtain ⟨m5, ms5⟩ := s5
  subst hm5 hms5
  dsimp only at htr hlp hp3 hp4 hp5 hsp
  obtain ⟨NInv, _, _, Nnone, _⟩ := PageTable.new_spec m mN pnpt hpn
  obtain ⟨Troot, TInv, Tlb, Tupd, Tprov⟩ :=
    MemorySet.map_trampoline_spec mN { page_table := pnpt, areas := [] } spp
      mT msT NInv htr
  obtain ⟨Lroot, LInv, Llb, Lmax, Lpres, Lprov⟩ :=
    MemorySet.loadPhs_spec elf.phs mT msT elf.input 0 mL msL maxEnd
      TInv hphs hlp
  set stackArea : MapArea :=
    MapArea.new (maxEnd * PAGE_SIZE + PAGE_SIZE)
      (maxEnd * PAGE_SIZE + PAGE_SIZE + USER_STACK_SIZE)
      MapType.Framed (2 ||| 4 ||| 16) with hstackArea
  set placeArea : MapArea :=
    MapArea.new (maxEnd * PAGE_SIZE + PAGE_SIZE + USER_STACK_SIZE)
      (maxEnd * PAGE_SIZE + PAGE_SIZE + USER_STACK_SIZE)
      MapType.Framed (2 ||| 4 ||| 16) with hplaceArea
  set trapArea : MapArea :=
    MapArea.new TRAP_CONTEXT_BASE TRAMPOLINE MapType.Framed (2 ||| 4)
    with htrapArea
  obtain ⟨Sroot, SInv, Slb, _, Spres, Sval, Sprov⟩ :=
    MemorySet.push_spec mL msL stackArea none m3 ms3 LInv (Or.inl rfl) hp3
  obtain ⟨Proot, PInv, Plb, _, Ppres, _, Pprov⟩ :=
    MemorySet.push_spec m3 ms3 placeArea none m4 ms4 SInv (Or.inl rfl) hp4
  obtain ⟨Qroot, QInv, Qlb, _, Qpres, Qval, Qprov⟩ :=
    MemorySet.push_spec m4 ms4 trapArea none m5 ms5 PInv (Or.inl rfl) hp5
  -- page bounds of the fixed areas
  have hsa1 : stackArea.vpn_start = maxEnd + 1 := by
    show vaFloor (maxEnd * PAGE_SIZE + PAGE_SIZE) = maxEnd + 1
    unfold vaFloor PAGE_SIZE
    omega
  have hsa2 : stackArea.vpn_end = maxEnd + 3 := by
    show vaCeil (maxEnd * PAGE_SIZE + PAGE_SIZE + USER_STACK_SIZE) = maxEnd + 3
    unfold vaCeil USER_STACK_SIZE PAGE_SIZE
    omega
  have hpa1 : placeArea.vpn_start = maxEnd + 3 := by
    show vaFloor (maxEnd * PAGE_SIZE + PAGE_SIZE + USER_STACK_SIZE) = maxEnd + 3
    unfold vaFloor USER_STACK_SIZE PAGE_SIZE
    omega
  have hpa2 : placeArea.vpn_end = maxEnd + 3 := by
    show vaCeil (maxEnd * PAGE_SIZE + PAGE_SIZE + USER_STACK_SIZE) = maxEnd + 3
    unfold vaCeil USER_STACK_SIZE PAGE_SIZE
    omega
  have hta1 : trapArea.vpn_start = 2 ^ 52 - 2 := by
    show vaFloor TRAP_CONTEXT_BASE = 2 ^ 52 - 2
    unfold vaFloor TRAP_CONTEXT_BASE TRAMPOLINE PAGE_SIZE
    omega
  have hta2 : trapArea.vpn_end = 2 ^ 52 - 1 := by
    show vaCeil TRAMPOLINE = 2 ^ 52 - 1
    unfold vaCeil TRAMPOLINE PAGE_SIZE
    omega
  have htrvpn : vaFloor TRAMPOLINE % 2 ^ 27 = 2 ^ 27 - 1 := by
    unfold vaFloor TRAMPOLINE PAGE_SIZE
    omega
  have hv : vaFloor TRAP_CONTEXT_BASE = 2 ^ 52 - 2 := by
    unfold vaFloor TRAP_CONTEXT_BASE TRAMPOLINE PAGE_SIZE
    omega
  refine ⟨by rw [← hsp, Lmax], by rw [← hep], QInv, ?_, ?_⟩
  · -- the trap-context page is mapped R|W
    obtain ⟨f, hf⟩ := Qval (vaFloor TRAP_CONTEXT_BASE)
      (le_of_eq (hta1.trans hv.symm)) (by rw [hta2, hv]; omega)
    exact ⟨f, hf⟩
  · -- the guard page has no valid translation
    intro hg hbelow
    rw [← Lmax] at hg hbelow ⊢
    have hgmod : maxEnd % 2 ^ 27 = maxEnd := by omega
    rw [Qpres maxEnd (by
      intro v h1 h2 hcon
      rw [hta1] at h1
      rw [hta2] at h2
      rw [hgmod] at hcon
      omega)]
    rw [Ppres maxEnd (by
      intro v h1 h2
      rw [hpa1] at h1
      rw [hpa2] at h2
      omega)]
    rw [Spres maxEnd (by
      intro v h1 h2 hcon
      rw [hsa1] at h1
      rw [hsa2] at h2
      rw [hgmod] at hcon
      omega)]
    rw [Lpres maxEnd (by
      rintro ⟨ph, hmem, hload, v, hv1, hv2, hcon⟩
      have hle := hbelow ph hmem hload
      rw [hgmod] at hcon
      omega)]
    rw [Tupd maxEnd, if_neg (by rw [hgmod, htrvpn]; omega)]
    exact Nnone maxEnd

/-- The `welf` build succeeds, returning the machine `mW`, the space
`msW`, stack top 20480 and entry point 4096. -/
theorem wrun_eq : MemorySet.from_elf mach0 welf 5 = some (mW, msW, 20480, 4096) := rfl

/-- Claim C3 (amended): for every image accepted by `from_elf` whose
loadable headers have nonzero memory size and file size within memory
size, the returned stack top equals `stack_bottom + USER_STACK_SIZE`
where `stack_bottom` is one page above the end page of the LAST loadable
header (the `max_end_vpn` accumulator is overwritten, not maximised), and
the returned entry point equals the image's declared entry point. -/
theorem claim_C3 (m : Machine) (elf : ElfImage) (spp : Nat)
    (mF : Machine) (msF : MemorySet) (sp ep : Nat)
    (hphs : ∀ ph ∈ elf.phs, ph.is_load = true →
      ph.mem_size ≠ 0 ∧ ph.file_size ≤ ph.mem_size)
    (hrun : MemorySet.from_elf m elf spp = some (mF, msF, sp, ep)) :
    sp = lastLoadEnd elf.phs 0 * PAGE_SIZE + PAGE_SIZE + USER_STACK_SIZE ∧
    ep = elf.entry_point := by
  obtain ⟨h1, h2, -⟩ := MemorySet.from_elf_spec m elf spp mF msF sp ep hphs hrun
  exact ⟨h1, h2⟩

/-- Witness for C3 on the concrete image `welf`. -/
theorem claim_C3_witness :
    (20480 : Nat) = lastLoadEnd welf.phs 0 * PAGE_SIZE + PAGE_SIZE + USER_STACK_SIZE ∧
    (4096 : Nat) = welf.entry_point :=
  claim_C3 mach0 welf 5 mW msW 20480 4096 (by decide) wrun_eq

/-- Counterexample to C3 as stated: on the descending-header image
`celf` the returned stack top is 24576, computed from the LAST loadable
header's end page (3), not 28672 as the "highest loaded page" (end page
4) would give. -/
theorem claim_C3_counterexample :
    (cerun.map fun r => (r.2.2.1, r.2.2.2)) = some (24576, celf.entry_point) ∧
    highestLoadEnd celf.phs 0 = 4 ∧
    (24576 : Nat) ≠ 4 * PAGE_SIZE + PAGE_SIZE + USER_STACK_SIZE := by
  refine ⟨by decide, by decide, by decide⟩

/-- Claim C2 (amended): for every image accepted by `from_elf` whose
loadable headers are well formed, the guard page is the page above the
end page `g` of the LAST loadable header (one below the stack bottom):
whenever every loadable segment in fact ends at or below `g` (so `g` is
also above the highest touched page) and `g + 4 ≤ 2 ^ 27`, translating
`g` yields no valid entry. -/
theorem claim_C2 (m : Machine) (elf : ElfImage) (spp : Nat)
    (mF : Machine) (msF : MemorySet) (sp ep : Nat)
    (hphs : ∀ ph ∈ elf.phs, ph.is_load = true →
      ph.mem_size ≠ 0 ∧ ph.file_size ≤ ph.mem_size)
    (hrun : MemorySet.from_elf m elf spp = some (mF, msF, sp, ep))
    (hsmall : lastLoadEnd elf.phs 0 + 4 ≤ 2 ^ 27)
    (hbelow : ∀ ph ∈ elf.phs, ph.is_load = true →
      vaCeil (ph.virtual_addr + ph.mem_size) ≤ lastLoadEnd elf.phs 0) :
    PageTable.transValid mF msF.page_table (lastLoadEnd elf.phs 0) = none :=
  (MemorySet.from_elf_spec m elf spp mF msF sp ep hphs hrun).2.2.2.2 hsmall hbelow

/-- Witness for C2 on the concrete image `welf`: its guard page (page 2)
has no valid translation in the built space. -/
theorem claim_C2_witness :
    lastLoadEnd welf.phs 0 + 4 ≤ 2 ^ 27 ∧
    PageTable.transValid mW msW.page_table (lastLoadEnd welf.phs 0) = none :=
  ⟨by decide,
    claim_C2 mach0 welf 5 mW msW 20480 4096 (by decide) wrun_eq (by decide) (by decide)⟩

/-- Counterexample to C2 as stated: in the space built from `celf` the
page above the highest touched page (page 4) IS validly mapped (it is a
stack page), and the page below the stack (page 3) IS validly mapped (by
the first loadable header) — the claimed guard page does not exist. -/
theorem claim_C2_counterexample :
    highestLoadEnd celf.phs 0 = 4 ∧ lastLoadEnd celf.phs 0 = 3 ∧
    (cerun.bind fun r => PageTable.transValid r.1 r.2.1.page_table 4) = some 9239 ∧
    PageTableEntry.is_valid 9239 ∧
    (cerun.bind fun r => PageTable.transValid r.1 r.2.1.page_table 3) = some 3091 ∧
    PageTableEntry.is_valid 3091 := by
  refine ⟨by decide, by decide, by decide, by decide, by decide, by decide⟩

/-- Claim C6 (amended): for every image accepted by `from_elf`, the
trap-context page at `TRAP_CONTEXT_BASE` is frame-backed and mapped with
a valid, readable and writable entry — but supervisor-only: the `U`
(user-accessible) bit of the entry is clear, so the segment is NOT
user-readable/writable. -/
theorem claim_C6 (m : Machine) (elf : ElfImage) (spp : Nat)
    (mF : Machine) (msF : MemorySet) (sp ep : Nat)
    (hphs : ∀ ph ∈ elf.phs, ph.is_load = true →
      ph.mem_size ≠ 0 ∧ ph.file_size ≤ ph.mem_size)
    (hrun : MemorySet.from_elf m elf spp = some (mF, msF, sp, ep)) :
    ∃ pte, PageTable.transValid mF msF.page_table (vaFloor TRAP_CONTEXT_BASE) = some pte ∧
      PageTableEntry.is_valid pte ∧ PageTableEntry.readable pte ∧
      PageTableEntry.writable pte ∧ PageTableEntry.flags pte &&& 16 = 0 := by
  obtain ⟨f, hf⟩ := (MemorySet.from_elf_spec m elf spp mF msF sp ep hphs hrun).2.2.2.1
  have h7 : PageTableEntry.flags (PageTableEntry.new f (PTEFlags.orV (2 ||| 4))) = 7 := by
    rw [PageTableEntry.flags_new_mod]
    decide
  refine ⟨PageTableEntry.new f (PTEFlags.orV (2 ||| 4)), hf, ?_, ?_, ?_, ?_⟩
  · unfold PageTableEntry.is_valid
    rw [h7]
    decide
  · unfold PageTableEntry.readable
    rw [h7]
    decide
  · unfold PageTableEntry.writable
    rw [h7]
    decide
  · rw [h7]
    decide

/-- Witness for C6 on the concrete image `welf`. -/
theorem claim_C6_witness :
    ∃ pte, PageTable.transValid mW msW.page_table (vaFloor TRAP_CONTEXT_BASE) = some pte ∧
      PageTableEntry.is_valid pte ∧ PageTableEntry.readable pte ∧
      PageTableEntry.writable pte ∧ PageTableEntry.flags pte &&& 16 = 0 :=
  claim_C6 mach0 welf 5 mW msW 20480 4096 (by decide) wrun_eq

/-- Counterexample to C6 as stated: in the space built from `welf` the
trap-context entry is 9223, whose flag byte is 7 = V|R|W — the `U` bit
is clear, so the page is not "kernel+user-readable/writable": user mode
has no access. -/
theorem claim_C6_counterexample :
    (wrun.bind fun r =>
      PageTable.transValid r.1 r.2.1.page_table (vaFloor TRAP_CONTEXT_BASE)) = some 9223 ∧
    PageTableEntry.flags 9223 = 7 ∧ PageTableEntry.flags 9223 &&& 16 = 0 := by
  refine ⟨by decide, by decide, by decide⟩
